import Mathlib

/-!
Verification of the day18 maze solver (Advent of Code 2019 day 18, Go source
`src/main.go`).

The Go program is shallowly embedded here:

* characters are modelled as their byte values (`Nat`), since the Go code
  manipulates bytes (`rows[i][j]`, `char | 32`, `char - 'a'`);
* cells are identified by their grid position `Pos = Nat × Nat` (the Go code
  identifies them by pointer; one pointer is created per non-wall position);
* the mutable adjacency lists built by `maze.addCell`/`cell.join` become a
  function `Pos → List Pos` threaded through a fold over the rows
  (`buildSt`);
* the two loops that Go runs until exhaustion (`findPaths`'s BFS queue and
  the recursion of `shortestPath`) are given an explicit fuel parameter so
  that every definition is structurally recursive and kernel-computable;
  theorems either hold for every fuel or carry an explicit
  sufficient-fuel hypothesis;
* Go's `map[string]int` memo table becomes an association list whose keys
  are the byte strings produced by `state.String()`
  (`fmt.Sprintf("%s%d", cells, s.keys)`), i.e. the cells' characters
  followed by the decimal digits of the keyset.
-/

namespace Day18
/-- A cell is identified by its (row, column) grid position. -/
abbrev Pos := Nat × Nat

/-- The raw maze input: a list of rows, each row a list of byte values. -/
abbrev Grid := List (List Nat)

/-- Byte values of a string, for writing concrete mazes. -/
def rowBytes (s : String) : List Nat := s.toList.map Char.toNat

/-- The byte at position `p` of the grid; out-of-range reads give `35`
(the wall byte `'#'`), which the Go program never performs. -/
def charAt (g : Grid) (p : Pos) : Nat := (g.getD p.1 []).getD p.2 35

/-- Cell classification, from `cellType` in the source. -/
inductive CellType where
  | empty : CellType
  | start : CellType
  | key : CellType
  | door : CellType
deriving DecidableEq, Repr

/-- Classification of a byte, from `newCell`: `'@'` (64) is a start cell,
`'a'`–`'z'` (97–122) a key, `'A'`–`'Z'` (65–90) a door, anything else open. -/
def cellTypeOf (c : Nat) : CellType :=
  if c = 64 then CellType.start
  else if 97 ≤ c ∧ c ≤ 122 then CellType.key
  else if 65 ≤ c ∧ c ≤ 90 then CellType.door
  else CellType.empty

/-- `keyset.contains`: `k>>(char-'a')&1 == 1`.  The subtraction is Go byte
arithmetic, i.e. `(c - 97) mod 256`. -/
def contains (k c : Nat) : Bool := (k >>> ((c + 159) % 256)) &&& 1 == 1

/-- `keyset.plus`: `k | 1<<(char-'a')`.  The shift is a Go `uint` (64-bit)
shift, hence the reduction modulo `2^64`; for the lowercase bytes the
program feeds it, the shift amount is below 26 and the reduction is
invisible. -/
def plus (k c : Nat) : Nat := k ||| ((1 <<< ((c + 159) % 256)) % 18446744073709551616)

/-- `keyset.containsAll`: `k&keys == keys`. -/
def containsAll (k ks : Nat) : Bool := k &&& ks == ks

/-- A precomputed path (`path` in the source): hop count, destination cell and
the keyset of doors crossed. -/
structure PathE where
  len : Nat
  dest : Pos
  reqKeys : Nat
deriving DecidableEq, Repr

/-- The mutable state built by `readMaze`: the adjacency lists of all placed
cells, which positions hold a cell (`rows[i][j] != nil`), and the maze's
keyset. -/
structure BuildSt where
  adj : Pos → List Pos
  placed : Pos → Bool
  keys : Nat

/-- The maze before any cell is added (`newMaze`): all rows `nil`, empty
keyset. -/
def initSt : BuildSt := ⟨fun _ => [], fun _ => false, 0⟩

/-- `cell.join`: append each cell to the other's adjacency list. -/
def joinAdj (a : Pos → List Pos) (c c1 : Pos) : Pos → List Pos :=
  let a1 := Function.update a c (a c ++ [c1])
  Function.update a1 c1 (a1 c1 ++ [c])

/-- `maze.addCell`: place the cell at `(i, j)`, join it to any already placed
neighbour above, to the left, below and to the right (the bounds `h`, `w`
are those of the Go cell array), and add its key to the keyset if it is a
key cell. -/
def addCell (h w i j : Nat) (ch : Nat) (st : BuildSt) : BuildSt :=
  let placed := Function.update st.placed (i, j) true
  let a0 := st.adj
  let a1 := if 0 < i ∧ placed (i - 1, j) = true then joinAdj a0 (i, j) (i - 1, j) else a0
  let a2 := if 0 < j ∧ placed (i, j - 1) = true then joinAdj a1 (i, j) (i, j - 1) else a1
  let a3 := if i + 1 < h ∧ placed (i + 1, j) = true then joinAdj a2 (i, j) (i + 1, j) else a2
  let a4 := if j + 1 < w ∧ placed (i, j + 1) = true then joinAdj a3 (i, j) (i, j + 1) else a3
  let ks := if cellTypeOf ch = CellType.key then plus st.keys ch else st.keys
  ⟨a4, placed, ks⟩

/-- The inner loop of `readMaze`: scan one row, adding a cell for every
non-wall byte. -/
def buildRow (h w i : Nat) : Nat → List Nat → BuildSt → BuildSt
  | _, [], st => st
  | j, ch :: rest, st =>
      buildRow h w i (j + 1) rest (if ch ≠ 35 then addCell h w i j ch st else st)

/-- The outer loop of `readMaze`: scan the rows top to bottom. -/
def buildRows (h w : Nat) : Nat → List (List Nat) → BuildSt → BuildSt
  | _, [], st => st
  | i, row :: rest, st => buildRows h w (i + 1) rest (buildRow h w i 0 row st)

/-- `readMaze` up to (but not including) `buildPaths`: build the cell/adjacency
structure for grid `g` with the Go array bounds `h = len(rows)`,
`w = len(rows[0])`. -/

def buildSt (g : Grid) : BuildSt := buildRows g.length (g.headD []).length 0 g initSt

/-- The adjacency list of a cell of maze `g`. -/
def adjOf (g : Grid) : Pos → List Pos := (buildSt g).adj

/-- The full keyset of maze `g` (`maze.keys`). -/
def mazeKeys (g : Grid) : Nat := (buildSt g).keys

/-- The inner loop of `maze.start`: collect the start cells of one row. -/
def startRow (i : Nat) : Nat → List Nat → List Pos
  | _, [] => []
  | j, ch :: rest =>
      (if ch ≠ 35 ∧ cellTypeOf ch = CellType.start then [(i, j)] else []) ++
        startRow i (j + 1) rest

/-- `maze.start`: all start cells in row-major order. -/
def startCellsAux : Nat → List (List Nat) → List Pos
  | _, [] => []
  | i, row :: rest => startRow i 0 row ++ startCellsAux (i + 1) rest

/-- `maze.start`: the ordered list of start cells of maze `g`. -/
def startCells (g : Grid) : List Pos := startCellsAux 0 g

/-- One dequeue step's neighbour scan in `findPaths`: mark each unseen
neighbour seen and append a queue entry for it, recording the door's key if
the neighbour is a door (`adj.char | 32`). -/
def enqueueNbrs (g : Grid) (cur : PathE) (nbrs : List Pos) (acc : List Pos × List PathE) :
    List Pos × List PathE :=
  nbrs.foldl
    (fun acc a =>
      if a ∈ acc.1 then acc
      else
        (a :: acc.1,
          acc.2 ++ [⟨cur.len + 1, a,
            if cellTypeOf (charAt g a) = CellType.door then plus cur.reqKeys (charAt g a ||| 32)
            else cur.reqKeys⟩]))
    acc

/-- The BFS loop of `findPaths`, with explicit fuel: dequeue the head, emit it
as a result if it ends at a key, and enqueue its unseen neighbours. -/
def bfsLoop (g : Grid) (adj : Pos → List Pos) : Nat → List PathE → List Pos → List PathE
  | 0, _, _ => []
  | _ + 1, [], _ => []
  | fuel + 1, cur :: rest, seen =>
      let step := enqueueNbrs g cur (adj cur.dest) (seen, [])
      (if cellTypeOf (charAt g cur.dest) = CellType.key then [cur] else []) ++
        bfsLoop g adj fuel (rest ++ step.2) step.1

/-- Total number of grid bytes; bounds the number of cells, so `2 * gridSize + 1`
fuel is enough for the BFS to run to queue exhaustion. -/
def gridSize (g : Grid) : Nat := (g.map List.length).sum

/-- `findPaths(c)`: BFS from `c` over the maze's adjacency lists, starting from
the zero-length path to `c` itself with `c` already seen. -/
def findPaths (g : Grid) (c : Pos) : List PathE :=
  bfsLoop g (adjOf g) (2 * gridSize g + 1) [⟨0, c, 0⟩] [c]

/-- `cell.paths` after `buildPaths`: populated (by `findPaths`) only for key
and start cells, `nil` for every other cell. -/
def pathsOf (g : Grid) (c : Pos) : List PathE :=
  if cellTypeOf (charAt g c) = CellType.key ∨ cellTypeOf (charAt g c) = CellType.start then
    findPaths g c
  else []

/-- A traversal state (`state` in the source): the agents' current cells and
the collected keyset. -/
structure StateE where
  cells : List Pos
  keys : Nat
deriving DecidableEq, Repr

/-- Decimal digits (as bytes, most significant first) of `n`, with fuel. -/
def decDigits : Nat → Nat → List Nat
  | 0, _ => []
  | fuel + 1, n => if n < 10 then [48 + n] else decDigits fuel (n / 10) ++ [48 + n % 10]

/-- The bytes of `fmt.Sprintf("%d", n)`. -/
def repBytes (n : Nat) : List Nat := decDigits (n + 1) n

/-- `state.String()`: the bytes of `fmt.Sprintf("%s%d", cells, s.keys)` — the
agents' cell characters followed by the decimal keyset. -/
def stateKey (g : Grid) (s : StateE) : List Nat := s.cells.map (charAt g) ++ repBytes s.keys

/-- The memo table `map[string]int`, as an association list (later bindings
shadow earlier ones, matching map overwrite). -/
abbrev Table := List (List Nat × Nat)

/-- The body of the inner loop of `shortestPath` for one path `p` of agent `i`:
skip it if its key is already collected or a door on it cannot be opened;
otherwise recurse on the next state (agent `i` moved to `p.dest`, key
collected) and fold the candidate total `p.len + recursive result` into the
running minimum (`0` meaning "no candidate yet"). -/
def pathStep (g : Grid) (recur : StateE → Table → Nat × Table) (s : StateE) (i : Nat)
    (acc : Nat × Table) (p : PathE) : Nat × Table :=
  if contains s.keys (charAt g p.dest) || ! containsAll s.keys p.reqKeys then acc
  else
    let next : StateE := ⟨s.cells.set i p.dest, plus s.keys (charAt g p.dest)⟩
    let r := recur next acc.2
    let dist := p.len + r.1
    (if acc.1 == 0 || dist < acc.1 then dist else acc.1, r.2)

/-- The body of the outer loop of `shortestPath` for agent `i` at cell `c`:
fold `pathStep` over the cell's precomputed paths. -/
def cellStep (g : Grid) (recur : StateE → Table → Nat × Table) (s : StateE)
    (acc : Nat × Table) (ic : Nat × Pos) : Nat × Table :=
  (pathsOf g ic.2).foldl (pathStep g recur s ic.1) acc

/-- `shortestPath`, with explicit recursion fuel: return `0` once every key is
collected, otherwise answer from the memo table if possible, otherwise take
the minimum candidate over all agents and paths and memoize it.  The fuel
case `0` is never reached when the fuel exceeds the number of missing keys. -/
def shortestPathF (g : Grid) : Nat → StateE → Table → Nat × Table
  | 0, _, t => (0, t)
  | fuel + 1, s, t =>
      if s.keys = mazeKeys g then (0, t)
      else
        let sk := stateKey g s
        match List.lookup sk t with
        | some d => (d, t)
        | none =>
            let r := s.cells.enum.foldl
              (cellStep g (fun s' t' => shortestPathF g fuel s' t') s) (0, t)
            (r.1, (sk, r.1) :: r.2)

/-- The body of the inner loop of the memoization-free search: identical to
`pathStep`, with the table threading removed. -/
def purePathStep (g : Grid) (recur : StateE → Nat) (s : StateE) (i : Nat)
    (acc : Nat) (p : PathE) : Nat :=
  if contains s.keys (charAt g p.dest) || ! containsAll s.keys p.reqKeys then acc
  else
    let dist := p.len + recur ⟨s.cells.set i p.dest, plus s.keys (charAt g p.dest)⟩
    if acc == 0 || dist < acc then dist else acc

/-- The body of the outer loop of the memoization-free search: identical to
`cellStep`, with the table threading removed. -/
def pureCellStep (g : Grid) (recur : StateE → Nat) (s : StateE)
    (acc : Nat) (ic : Nat × Pos) : Nat :=
  (pathsOf g ic.2).foldl (purePathStep g recur s ic.1) acc

/-- `shortestPath` with the memoization removed (no table lookup or store):
the same recursion on the same candidates. -/
def solvePure (g : Grid) : Nat → StateE → Nat
  | 0, _ => 0
  | fuel + 1, s =>
      if s.keys = mazeKeys g then 0
      else
        s.cells.enum.foldl
          (pureCellStep g (fun s' => solvePure g fuel s') s) 0

/-- Concrete scenario 1 from the specification. -/
def maze1 : Grid := [rowBytes "#########", rowBytes "#b.A.@.a#", rowBytes "#########"]

/-- A one-key maze whose only landmark is the key cell itself. -/
def mazeSelf : Grid := [rowBytes "#a#"]

/-- A maze whose single key is walled off from the start cell. -/
def mazeBlocked : Grid := [rowBytes "#@#a#"]

/-- The same corridor as scenario 1, but with the door replaced by a second
copy of key `a`: two distinct cells share the character `a`, so two distinct
states share a canonical memo key. -/
def mazeDup : Grid := [rowBytes "#########", rowBytes "#b.a.@.a#", rowBytes "#########"]

/-- Number of maze keys not yet collected in keyset `k`. -/
def missingK (g : Grid) (k : Nat) : Nat :=
  ((Finset.range 26).filter
    (fun b => (mazeKeys g).testBit b = true ∧ k.testBit b = false)).card

/-- Number of maze keys not yet collected in state `s`. -/
def missingCount (g : Grid) (s : StateE) : Nat := missingK g s.keys

/-- A state all of whose agent cells are landmarks (start or key cells); all
states arising in the search are of this shape. -/
def GoodState (g : Grid) (s : StateE) : Prop :=
  ∀ c ∈ s.cells, cellTypeOf (charAt g c) = CellType.start ∨
    cellTypeOf (charAt g c) = CellType.key

/-- A memo table every entry of which agrees with the memoization-free
search on every landmark state carrying that canonical key. -/
def Coherent (g : Grid) (t : Table) : Prop :=
  ∀ s : StateE, GoodState g s → ∀ v, List.lookup (stateKey g s) t = some v →
    v = solvePure g 27 s

/-- Two grid positions are orthogonal neighbours: they differ by exactly one
in exactly one coordinate. -/
def orthAdjacent (p q : Pos) : Prop :=
  (p.1 = q.1 ∧ (p.2 = q.2 + 1 ∨ q.2 = p.2 + 1)) ∨
  (p.2 = q.2 ∧ (p.1 = q.1 + 1 ∨ q.1 = p.1 + 1))

/-- An adjacency map that is symmetric and relates only orthogonal
neighbours. -/
def AdjOk (a : Pos → List Pos) : Prop :=
  (∀ p q : Pos, q ∈ a p ↔ p ∈ a q) ∧ (∀ p q : Pos, q ∈ a p → orthAdjacent p q)

/-- A heap of cell slices, modelling Go slice allocation explicitly: a
`state` value holds a reference (index) to its cells slice.  Used to state
the frame property of `shortestPath` (claim C10), which a pure value
embedding cannot express. -/
abbrev Heap := List (List Pos)

/-- The heap-model `state`: a slice reference plus the keyset value. -/
structure StateH where
  id : Nat
  keys : Nat
deriving DecidableEq, Repr

/-- Dereference a state's cells slice. -/
def readCells (hp : Heap) (s : StateH) : List Pos := hp.getD s.id []

/-- `state.copy`: allocate a fresh slice holding a copy of the cells (and the
same keyset value). -/
def copyH (hp : Heap) (s : StateH) : StateH × Heap :=
  (⟨hp.length, s.keys⟩, hp ++ [readCells hp s])

/-- `nextState.cells[i] = path.dest`: in-place write into a slice. -/
def writeCell (hp : Heap) (id i : Nat) (v : Pos) : Heap :=
  hp.set id ((hp.getD id []).set i v)

/-- The heap-model body of the inner loop of `shortestPath`: as `pathStep`,
but the next state is built by copying the current cells slice into a
fresh slice and writing agent `i`'s new cell there. -/
def pathStepH (g : Grid) (recur : StateH → Table → Heap → Nat × Table × Heap)
    (s : StateH) (i : Nat) (acc : Nat × Table × Heap) (p : PathE) : Nat × Table × Heap :=
  if contains s.keys (charAt g p.dest) || ! containsAll s.keys p.reqKeys then acc
  else
    let cp := copyH acc.2.2 s
    let hp1 := writeCell cp.2 cp.1.id i p.dest
    let next : StateH := ⟨cp.1.id, plus s.keys (charAt g p.dest)⟩
    let r := recur next acc.2.1 hp1
    let dist := p.len + r.1
    (if acc.1 == 0 || dist < acc.1 then dist else acc.1, r.2.1, r.2.2)

/-- The heap-model body of the outer loop of `shortestPath`. -/
def cellStepH (g : Grid) (recur : StateH → Table → Heap → Nat × Table × Heap)
    (s : StateH) (acc : Nat × Table × Heap) (ic : Nat × Pos) : Nat × Table × Heap :=
  (pathsOf g ic.2).foldl (pathStepH g recur s ic.1) acc

/-- `shortestPath` in the heap model: identical control flow to
`shortestPathF`, with the cells slices living in an explicit heap. -/
def shortestPathH (g : Grid) : Nat → StateH → Table → Heap → Nat × Table × Heap
  | 0, _, t, hp => (0, t, hp)
  | fuel + 1, s, t, hp =>
      if s.keys = mazeKeys g then (0, t, hp)
      else
        let sk := (readCells hp s).map (charAt g) ++ repBytes s.keys
        match List.lookup sk t with
        | some d => (d, t, hp)
        | none =>
            let r := (readCells hp s).enum.foldl
              (cellStepH g (fun s' t' hp' => shortestPathH g fuel s' t' hp') s) (0, t, hp)
            (r.1, (sk, r.1) :: r.2.1, r.2.2)

/-- `hp'` extends `hp`: it is at least as long and agrees on every slice of
`hp`. -/
def HeapExtends (hp hp' : Heap) : Prop :=
  hp.length ≤ hp'.length ∧ ∀ j, j < hp.length → hp'.getD j [] = hp.getD j []

/-- `walk adj src n t`: `t` is reachable from `src` in exactly `n` hops of
the adjacency relation. -/
def walk (adj : Pos → List Pos) (src : Pos) : Nat → Pos → Prop
  | 0, t => t = src
  | n + 1, t => ∃ v, walk adj src n v ∧ t ∈ adj v

/-- The shortest-hop distance: `d` is the length of a walk and no walk is
shorter. -/
def DistIs (adj : Pos → List Pos) (src t : Pos) (d : Nat) : Prop :=
  walk adj src d t ∧ ∀ m, walk adj src m t → d ≤ m

/-- The non-wall in-bounds positions of the grid, as a finite set. -/
def cellsFin (g : Grid) : Finset Pos :=
  (Finset.range g.length).biUnion (fun i =>
    ((Finset.range ((g.getD i []).length)).filter
      (fun j => (g.getD i []).getD j 35 ≠ 35)).image (fun j => (i, j)))

/-- The bookkeeping invariant for adjacency boundedness: placed cells are
real cells of the grid, and adjacency lists mention only placed cells. -/
def AdjBnd (g : Grid) (st : BuildSt) : Prop :=
  (∀ p : Pos, st.placed p = true → p ∈ cellsFin g) ∧
  (∀ p q : Pos, q ∈ st.adj p → st.placed p = true ∧ st.placed q = true)

/-- The BFS loop invariant: the source is seen, queued destinations are
seen, queue entries carry exact shortest distances, the queue is sorted by
length and spans at most two consecutive levels, and a seen cell either
still waits in the queue or has been processed with all its neighbours
seen. -/
def BfsInv (adj : Pos → List Pos) (c : Pos) (q : List PathE) (seen : List Pos) : Prop :=
  c ∈ seen ∧
  (∀ e ∈ q, e.dest ∈ seen) ∧
  (∀ e ∈ q, DistIs adj c e.dest e.len) ∧
  List.Pairwise (fun e e' : PathE => e.len ≤ e'.len) q ∧
  (∀ e ∈ q, ∀ e' ∈ q, e.len ≤ e'.len + 1) ∧
  (∀ a : Pos, a ∈ seen → (∃ e ∈ q, e.dest = a) ∨ ∀ b ∈ adj a, b ∈ seen)

/-- A one-key corridor for the C5 witness. -/
def mazeTiny : Grid := [rowBytes "#@a#"]

/-- For lowercase bytes, Go's wrapping byte subtraction `c - 'a'` is plain
subtraction. -/
theorem lower_shift {c : Nat} (h1 : 97 ≤ c) (h2 : c ≤ 122) : (c + 159) % 256 = c - 97 := by
  omega

/-- `contains` tests the bit `c - 'a'` (lowercase `c`). -/
theorem contains_eq_testBit (k : Nat) {c : Nat} (h1 : 97 ≤ c) (h2 : c ≤ 122) :
    contains k c = k.testBit (c - 97) := by
  rw [contains, lower_shift h1 h2, Nat.shiftRight_eq_div_pow, Nat.and_one_is_mod,
    Nat.testBit_to_div_mod]
  by_cases h : k / 2 ^ (c - 97) % 2 = 1
  · simp [h]
  · have : k / 2 ^ (c - 97) % 2 = 0 := by omega
    simp [this]

/-- `plus` sets the bit `c - 'a'` (lowercase `c`). -/
theorem plus_eq (k : Nat) {c : Nat} (h1 : 97 ≤ c) (h2 : c ≤ 122) :
    plus k c = k ||| 2 ^ (c - 97) := by
  rw [plus, lower_shift h1 h2, Nat.one_shiftLeft]
  congr 1
  have hlt : (2 : Nat) ^ (c - 97) < 2 ^ 64 :=
    Nat.pow_lt_pow_right (by norm_num) (by omega)
  exact Nat.mod_eq_of_lt hlt

/-- `containsAll` is the bitwise subset test. -/
theorem containsAll_iff (k ks : Nat) :
    containsAll k ks = true ↔ ∀ i, ks.testBit i = true → k.testBit i = true := by
  rw [containsAll, beq_iff_eq]
  constructor
  · intro h i hi
    have := congrArg (fun x => Nat.testBit x i) h
    simp only [Nat.testBit_and] at this
    rw [hi] at this
    simpa using this
  · intro h
    refine Nat.eq_of_testBit_eq fun i => ?_
    rw [Nat.testBit_and]
    cases hks : ks.testBit i
    · simp
    · simp [h i hks]

/-- Bits of `plus`. -/
theorem testBit_plus (k : Nat) {c : Nat} (h1 : 97 ≤ c) (h2 : c ≤ 122) (i : Nat) :
    (plus k c).testBit i = (k.testBit i || decide (c - 97 = i)) := by
  rw [plus_eq k h1 h2, Nat.testBit_or, Nat.testBit_two_pow]

/-- C7 — the keyset bit-set implements set semantics over the lowercase
letters: adding a key makes it a member, leaves other letters unchanged,
and `containsAll` is the subset test. -/
theorem keyset_set_semantics (k ks c d : Nat) (hc1 : 97 ≤ c) (hc2 : c ≤ 122)
    (hd1 : 97 ≤ d) (hd2 : d ≤ 122) (hks : ks < 2 ^ 26) :
    contains (plus k c) c = true ∧
    (d ≠ c → contains (plus k c) d = contains k d) ∧
    (containsAll k ks = true ↔
      ∀ e, 97 ≤ e → e ≤ 122 → contains ks e = true → contains k e = true) := by
  refine ⟨?_, ?_, ?_⟩
  · rw [contains_eq_testBit _ hc1 hc2, testBit_plus k hc1 hc2]
    simp
  · intro hdc
    rw [contains_eq_testBit _ hd1 hd2, contains_eq_testBit _ hd1 hd2,
      testBit_plus k hc1 hc2]
    have hcd : c - 97 ≠ d - 97 := by omega
    simp [hcd]
  · rw [containsAll_iff]
    constructor
    · intro h e he1 he2 hce
      rw [contains_eq_testBit _ he1 he2] at hce ⊢
      exact h _ hce
    · intro h i hi
      have hilt : i < 26 := by
        by_contra hge
        have : ks < 2 ^ i :=
          lt_of_lt_of_le hks (Nat.pow_le_pow_right (by norm_num) (by omega))
        rw [Nat.testBit_lt_two_pow this] at hi
        exact Bool.false_ne_true hi
      have he := h (i + 97) (by omega) (by omega)
      rw [contains_eq_testBit _ (by omega) (by omega),
        contains_eq_testBit _ (by omega) (by omega)] at he
      simpa using he (by simpa using hi)

/-- C7 witness: the subset-test hypotheses hold at a concrete instance. -/
theorem keyset_set_semantics_witness :
    (1 : Nat) < 2 ^ 26 ∧ contains (plus 0 97) 97 = true :=
  ⟨by norm_num,
    (keyset_set_semantics 0 1 97 98 (by norm_num) (by norm_num) (by norm_num)
      (by norm_num) (by norm_num)).1⟩

/-- C1 — on the scenario-1 maze, the search from the single start cell with an
empty keyset and a fresh memo table returns 8. -/
theorem scenario1_result : (shortestPathF maze1 30 ⟨startCells maze1, 0⟩ []).1 = 8 := by
  rfl

/-- C4 counterexample — for the key-cell landmark of `mazeSelf`, `findPaths`
returns a path whose destination is the landmark itself. -/
theorem self_key_in_own_paths :
    cellTypeOf (charAt mazeSelf (0, 1)) = CellType.key ∧
    ∃ p ∈ findPaths mazeSelf (0, 1), p.dest = (0, 1) := by
  refine ⟨by decide, ⟨⟨0, (0, 1), 0⟩, ?_, rfl⟩⟩
  decide

/-- The BFS loop on a non-empty queue: emit the head if it is a key, then
continue on the tail plus the newly enqueued neighbours. -/
theorem bfsLoop_cons (g : Grid) (adj : Pos → List Pos) (fuel : Nat) (cur : PathE)
    (rest : List PathE) (seen : List Pos) :
    bfsLoop g adj (fuel + 1) (cur :: rest) seen =
      (if cellTypeOf (charAt g cur.dest) = CellType.key then [cur] else []) ++
        bfsLoop g adj fuel (rest ++ (enqueueNbrs g cur (adj cur.dest) (seen, [])).2)
          (enqueueNbrs g cur (adj cur.dest) (seen, [])).1 := rfl

/-- C4 amended — for a key-cell landmark `c`, the path list of `findPaths c`
does contain a path to `c` itself: the zero-length path with empty
required-key set, enqueued as the initial queue entry, is its first
element. -/
theorem findPaths_self_entry_head (g : Grid) (c : Pos)
    (hkey : cellTypeOf (charAt g c) = CellType.key) :
    (findPaths g c).head? = some ⟨0, c, 0⟩ := by
  rw [findPaths, bfsLoop_cons, hkey]
  simp

/-- C4 amended witness. -/
theorem findPaths_self_entry_head_witness :
    cellTypeOf (charAt mazeSelf (0, 1)) = CellType.key ∧
    (findPaths mazeSelf (0, 1)).head? = some ⟨0, (0, 1), 0⟩ :=
  ⟨by decide, findPaths_self_entry_head mazeSelf (0, 1) (by decide)⟩

/-- A fold of `pathStep` over paths that are all skipped leaves the
accumulator unchanged. -/
theorem foldl_pathStep_skip (g : Grid) (recur : StateE → Table → Nat × Table)
    (s : StateE) (i : Nat) (ps : List PathE)
    (h : ∀ p ∈ ps, contains s.keys (charAt g p.dest) = true ∨
      containsAll s.keys p.reqKeys = false) :
    ∀ acc, ps.foldl (pathStep g recur s i) acc = acc := by
  induction ps with
  | nil => intro acc; rfl
  | cons p rest ih =>
      intro acc
      have hp := h p (List.mem_cons_self _ _)
      have hstep : pathStep g recur s i acc p = acc := by
        rw [pathStep]
        rcases hp with hp | hp <;> simp [hp]
      rw [List.foldl_cons, hstep]
      exact ih (fun q hq => h q (List.mem_cons_of_mem _ hq)) acc

/-- C2 — from a state that has not collected every key and has no eligible
path from any agent, `shortestPath` (called on a table with no entry for
the state) returns 0. -/
theorem no_eligible_returns_zero (g : Grid) (fuel : Nat) (s : StateE) (t : Table)
    (hne : s.keys ≠ mazeKeys g)
    (hmem : List.lookup (stateKey g s) t = none)
    (h : ∀ c ∈ s.cells, ∀ p ∈ pathsOf g c,
      contains s.keys (charAt g p.dest) = true ∨ containsAll s.keys p.reqKeys = false) :
    (shortestPathF g (fuel + 1) s t).1 = 0 := by
  have hfold : s.cells.enum.foldl
      (cellStep g (fun s' t' => shortestPathF g fuel s' t') s) (0, t) = (0, t) := by
    have haux : ∀ l : List (Nat × Pos), (∀ ic ∈ l, ic.2 ∈ s.cells) → ∀ acc : Nat × Table,
        l.foldl (cellStep g (fun s' t' => shortestPathF g fuel s' t') s) acc = acc := by
      intro l
      induction l with
      | nil => intro _ acc; rfl
      | cons ic rest ih =>
          intro hl acc
          rw [List.foldl_cons, cellStep,
            foldl_pathStep_skip g _ s ic.1 _ (h ic.2 (hl ic (List.mem_cons_self _ _))) acc]
          exact ih (fun q hq => hl q (List.mem_cons_of_mem _ hq)) acc
    refine haux _ (fun ic hic => ?_) (0, t)
    exact List.getElem?_mem (List.mem_enum_iff_getElem?.mp hic)
  rw [shortestPathF]
  simp only [if_neg hne, hmem, hfold]

/-- C2 witness: in `mazeBlocked` the key is unreachable, so the start state
has no eligible path and the search returns 0. -/
theorem no_eligible_returns_zero_witness :
    (⟨[(0, 1)], 0⟩ : StateE).keys ≠ mazeKeys mazeBlocked ∧
    (shortestPathF mazeBlocked 30 ⟨[(0, 1)], 0⟩ []).1 = 0 :=
  ⟨by decide,
    no_eligible_returns_zero mazeBlocked 29 ⟨[(0, 1)], 0⟩ [] (by decide) (by decide)
      (by decide)⟩

/-- C6 — in the recursive step, a path is skipped exactly when its key is
already collected or its required keys are not all held; otherwise it
contributes the candidate `p.len` plus the recursive result on the next
state (agent `i` moved to `p.dest`, key collected) to the running
minimum. -/
theorem path_step_eligibility (g : Grid) (recur : StateE → Table → Nat × Table)
    (s : StateE) (i : Nat) (acc : Nat × Table) (p : PathE) :
    (contains s.keys (charAt g p.dest) = true ∨ containsAll s.keys p.reqKeys = false →
      pathStep g recur s i acc p = acc) ∧
    (contains s.keys (charAt g p.dest) = false → containsAll s.keys p.reqKeys = true →
      pathStep g recur s i acc p =
        ((fun r => (if acc.1 == 0 || p.len + r.1 < acc.1 then p.len + r.1 else acc.1, r.2))
          (recur ⟨s.cells.set i p.dest, plus s.keys (charAt g p.dest)⟩ acc.2))) := by
  constructor
  · intro h
    rw [pathStep]
    rcases h with h | h <;> simp [h]
  · intro h1 h2
    rw [pathStep]
    simp [h1, h2]

/-- A key cell's byte is a lowercase letter. -/
theorem cellTypeOf_key_bounds {ch : Nat} (h : cellTypeOf ch = CellType.key) :
    97 ≤ ch ∧ ch ≤ 122 := by
  rw [cellTypeOf] at h
  split_ifs at h with h1 h2 h3 <;> first | exact h2 | exact absurd h (by decide)

/-- A start cell's byte is `'@'`. -/
theorem cellTypeOf_start_eq {ch : Nat} (h : cellTypeOf ch = CellType.start) : ch = 64 := by
  rw [cellTypeOf] at h
  split_ifs at h with h1 h2 h3 <;> first | exact h1 | exact absurd h (by decide)

/-- `plus` never clears a bit. -/
theorem testBit_plus_mono {k c b : Nat} (h : k.testBit b = true) :
    (plus k c).testBit b = true := by
  rw [plus, Nat.testBit_or, h, Bool.true_or]

/-- `addCell` never clears a keyset bit. -/
theorem addCell_keys_mono {h w i j ch : Nat} {st : BuildSt} {b : Nat}
    (hb : st.keys.testBit b = true) : (addCell h w i j ch st).keys.testBit b = true := by
  show (if cellTypeOf ch = CellType.key then plus st.keys ch else st.keys).testBit b = true
  split
  · exact testBit_plus_mono hb
  · exact hb

/-- `buildRow` never clears a keyset bit. -/
theorem buildRow_keys_mono {h w i : Nat} :
    ∀ (chs : List Nat) (j : Nat) (st : BuildSt) (b : Nat),
      st.keys.testBit b = true → (buildRow h w i j chs st).keys.testBit b = true := by
  intro chs
  induction chs with
  | nil => intro j st b hb; exact hb
  | cons ch rest ih =>
      intro j st b hb
      rw [buildRow]
      refine ih (j + 1) _ b ?_
      split
      · exact addCell_keys_mono hb
      · exact hb

/-- `buildRows` never clears a keyset bit. -/
theorem buildRows_keys_mono {h w : Nat} :
    ∀ (rows : List (List Nat)) (i : Nat) (st : BuildSt) (b : Nat),
      st.keys.testBit b = true → (buildRows h w i rows st).keys.testBit b = true := by
  intro rows
  induction rows with
  | nil => intro i st b hb; exact hb
  | cons row rest ih =>
      intro i st b hb
      exact ih (i + 1) _ b (buildRow_keys_mono row 0 st b hb)

/-- After scanning a row that holds a key byte, that key's bit is set. -/
theorem buildRow_keys_of_mem {h w i : Nat} :
    ∀ (chs : List Nat) (j : Nat) (st : BuildSt) (d : Nat) (ch : Nat),
      chs[d]? = some ch → cellTypeOf ch = CellType.key →
      (buildRow h w i j chs st).keys.testBit (ch - 97) = true := by
  intro chs
  induction chs with
  | nil => intro j st d ch hd; simp at hd
  | cons c rest ih =>
      intro j st d ch hd hkey
      match d with
      | 0 =>
          rw [List.getElem?_cons_zero, Option.some_inj] at hd
          subst hd
          rw [buildRow]
          have hb := cellTypeOf_key_bounds hkey
          have hne : c ≠ 35 := by omega
          rw [if_pos hne]
          refine buildRow_keys_mono rest (j + 1) _ _ ?_
          show (if cellTypeOf c = CellType.key then plus st.keys c else st.keys).testBit
            (c - 97) = true
          rw [if_pos hkey, testBit_plus st.keys hb.1 hb.2]
          simp
      | d + 1 =>
          rw [List.getElem?_cons_succ] at hd
          rw [buildRow]
          exact ih (j + 1) _ d ch hd hkey

/-- After scanning all rows, every key byte of the grid has its bit set. -/
theorem buildRows_keys_of_mem {h w : Nat} :
    ∀ (rows : List (List Nat)) (i : Nat) (st : BuildSt) (r d : Nat) (row : List Nat)
      (ch : Nat), rows[r]? = some row → row[d]? = some ch →
      cellTypeOf ch = CellType.key →
      (buildRows h w i rows st).keys.testBit (ch - 97) = true := by
  intro rows
  induction rows with
  | nil => intro i st r d row ch hr; simp at hr
  | cons row0 rest ih =>
      intro i st r d row ch hr hd hkey
      match r with
      | 0 =>
          rw [List.getElem?_cons_zero, Option.some_inj] at hr
          subst hr
          exact buildRows_keys_mono rest (i + 1) _ _
            (buildRow_keys_of_mem row0 0 st d ch hd hkey)
      | r + 1 =>
          rw [List.getElem?_cons_succ] at hr
          exact ih (i + 1) _ r d row ch hr hd hkey

/-- Every key cell's key belongs to the maze's full keyset. -/
theorem charAt_eq (g : Grid) (p : Pos) :
    charAt g p = ((g[p.1]?.getD [])[p.2]?).getD 35 := by
  rw [charAt, List.getD_eq_getElem?_getD, List.getD_eq_getElem?_getD]

/-- Every key cell's key belongs to the maze's full keyset. -/
theorem mazeKeys_complete (g : Grid) (p : Pos)
    (h : cellTypeOf (charAt g p) = CellType.key) :
    (mazeKeys g).testBit (charAt g p - 97) = true := by
  have hc := charAt_eq g p
  rcases hr : g[p.1]? with _ | row
  · rw [hr] at hc
    simp at hc
    rw [hc] at h
    exact absurd h (by decide)
  · rcases hd : row[p.2]? with _ | ch
    · rw [hr] at hc
      simp only [Option.getD_some] at hc
      rw [hd] at hc
      simp at hc
      rw [hc] at h
      exact absurd h (by decide)
    · have hch : charAt g p = ch := by
        rw [hc, hr]
        simp [hd]
      rw [hch] at h ⊢
      exact buildRows_keys_of_mem g 0 initSt p.1 p.2 row ch hr hd h

/-- Every path the BFS returns ends at a key cell. -/
theorem bfsLoop_key_dest (g : Grid) (adj : Pos → List Pos) :
    ∀ (fuel : Nat) (q : List PathE) (seen : List Pos) (pe : PathE),
      pe ∈ bfsLoop g adj fuel q seen → cellTypeOf (charAt g pe.dest) = CellType.key := by
  intro fuel
  induction fuel with
  | zero => intro q seen pe hpe; simp [bfsLoop] at hpe
  | succ fuel ih =>
      intro q seen pe hpe
      match q with
      | [] => simp [bfsLoop] at hpe
      | cur :: rest =>
          rw [bfsLoop_cons] at hpe
          rcases List.mem_append.mp hpe with hpe | hpe
          · split at hpe
            · rcases List.mem_singleton.mp hpe with rfl
              assumption
            · simp at hpe
          · exact ih _ _ pe hpe

/-- Every precomputed path of a cell ends at a key cell. -/
theorem pathsOf_key_dest (g : Grid) (c : Pos) (p : PathE) (hp : p ∈ pathsOf g c) :
    cellTypeOf (charAt g p.dest) = CellType.key := by
  rw [pathsOf] at hp
  split at hp
  · exact bfsLoop_key_dest g (adjOf g) _ _ _ p hp
  · simp at hp

/-- At most 26 keys can ever be missing. -/
theorem missingK_le (g : Grid) (k : Nat) : missingK g k ≤ 26 :=
  le_trans (Finset.card_filter_le _ _) (by simp)

/-- Collecting a missing maze key strictly decreases the missing count. -/
theorem missingK_plus_lt (g : Grid) (k ch : Nat) (h1 : 97 ≤ ch) (h2 : ch ≤ 122)
    (hmem : (mazeKeys g).testBit (ch - 97) = true)
    (hnot : k.testBit (ch - 97) = false) :
    missingK g (plus k ch) < missingK g k := by
  apply Finset.card_lt_card
  constructor
  · intro b hb
    rw [Finset.mem_filter] at hb ⊢
    refine ⟨hb.1, hb.2.1, ?_⟩
    have := hb.2.2
    rw [testBit_plus k h1 h2] at this
    exact (Bool.or_eq_false_iff.mp this).1
  · intro hsub
    have hin : (ch - 97) ∈ (Finset.range 26).filter
        (fun b => (mazeKeys g).testBit b = true ∧ k.testBit b = false) := by
      rw [Finset.mem_filter]
      exact ⟨Finset.mem_range.mpr (by omega), hmem, hnot⟩
    have hout := hsub hin
    rw [Finset.mem_filter] at hout
    have := hout.2.2
    rw [testBit_plus k h1 h2] at this
    simp at this

/-- Fold congruence: two folds agree if the step functions agree on the
list's members. -/
theorem foldl_congr_mem {α β : Type} (l : List α) (f f' : β → α → β)
    (h : ∀ b a, a ∈ l → f b a = f' b a) : ∀ b, l.foldl f b = l.foldl f' b := by
  induction l with
  | nil => intro b; rfl
  | cons a rest ih =>
      intro b
      rw [List.foldl_cons, List.foldl_cons, h b a (List.mem_cons_self _ _)]
      exact ih (fun b' a' ha' => h b' a' (List.mem_cons_of_mem _ ha')) _

/-- An eligible path strictly decreases the missing-key count of the state. -/
theorem eligible_missing_lt (g : Grid) (s : StateE) (i : Nat) (p : PathE)
    (hkey : cellTypeOf (charAt g p.dest) = CellType.key)
    (hcont : contains s.keys (charAt g p.dest) = false) :
    missingCount g ⟨s.cells.set i p.dest, plus s.keys (charAt g p.dest)⟩ <
      missingCount g s := by
  have hb := cellTypeOf_key_bounds hkey
  have hnot : s.keys.testBit (charAt g p.dest - 97) = false := by
    rw [contains_eq_testBit s.keys hb.1 hb.2] at hcont
    exact hcont
  exact missingK_plus_lt g s.keys _ hb.1 hb.2 (mazeKeys_complete g p.dest hkey) hnot

/-- `shortestPathF` does not depend on the fuel once the fuel exceeds the
number of missing keys. -/
theorem spf_stable (g : Grid) :
    ∀ n s t f1 f2, missingCount g s ≤ n → missingCount g s < f1 →
      missingCount g s < f2 → shortestPathF g f1 s t = shortestPathF g f2 s t := by
  intro n
  induction n using Nat.strong_induction_on with
  | _ n ih =>
      intro s t f1 f2 hn h1 h2
      match f1, f2 with
      | m1 + 1, m2 + 1 =>
          simp only [shortestPathF]
          by_cases hb : s.keys = mazeKeys g
          · rw [if_pos hb, if_pos hb]
          · rw [if_neg hb, if_neg hb]
            rcases hl : List.lookup (stateKey g s) t with _ | d
            · have hfold : s.cells.enum.foldl
                  (cellStep g (fun s' t' => shortestPathF g m1 s' t') s) (0, t) =
                  s.cells.enum.foldl
                  (cellStep g (fun s' t' => shortestPathF g m2 s' t') s) (0, t) := by
                refine foldl_congr_mem _ _ _ (fun b ic _ => ?_) (0, t)
                rw [cellStep, cellStep]
                refine foldl_congr_mem _ _ _ (fun b' p hp => ?_) b
                rw [pathStep, pathStep]
                by_cases hskip : (contains s.keys (charAt g p.dest) ||
                    ! containsAll s.keys p.reqKeys) = true
                · rw [if_pos hskip, if_pos hskip]
                · rw [if_neg hskip, if_neg hskip]
                  have hor : (contains s.keys (charAt g p.dest) ||
                      ! containsAll s.keys p.reqKeys) = false := by
                    cases hx : (contains s.keys (charAt g p.dest) ||
                        ! containsAll s.keys p.reqKeys)
                    · rfl
                    · exact absurd hx hskip
                  have hcont : contains s.keys (charAt g p.dest) = false :=
                    (Bool.or_eq_false_iff.mp hor).1
                  have hkey := pathsOf_key_dest g ic.2 p hp
                  have hlt := eligible_missing_lt g s ic.1 p hkey hcont
                  have hrec : shortestPathF g m1
                      ⟨s.cells.set ic.1 p.dest, plus s.keys (charAt g p.dest)⟩ b'.2 =
                      shortestPathF g m2
                      ⟨s.cells.set ic.1 p.dest, plus s.keys (charAt g p.dest)⟩ b'.2 := by
                    refine ih (missingCount g
                      ⟨s.cells.set ic.1 p.dest, plus s.keys (charAt g p.dest)⟩)
                      (lt_of_lt_of_le hlt hn) _ _ _ _ le_rfl ?_ ?_
                    · omega
                    · omega
                  simp only [hrec]
              rw [hfold]
            · rfl

/-- C8 — two runs of the search on the same maze from the same state, each
with its own fresh empty memo table (and any two sufficient fuels), return
identical results. -/
theorem search_deterministic (g : Grid) (s : StateE) (f1 f2 : Nat)
    (h1 : 27 ≤ f1) (h2 : 27 ≤ f2) :
    shortestPathF g f1 s [] = shortestPathF g f2 s [] := by
  have hle : missingCount g s ≤ 26 := missingK_le g s.keys
  exact spf_stable g 26 s [] f1 f2 hle (by omega) (by omega)

/-- C8 witness. -/
theorem search_deterministic_witness :
    27 ≤ 27 ∧
    shortestPathF maze1 27 ⟨startCells maze1, 0⟩ [] =
      shortestPathF maze1 40 ⟨startCells maze1, 0⟩ [] :=
  ⟨by norm_num,
    search_deterministic maze1 ⟨startCells maze1, 0⟩ 27 40 (by norm_num) (by norm_num)⟩

/-- C3 counterexample — in `mazeDup` the two distinct `a` cells make the
states `⟨[(1,3)], {a}⟩` and `⟨[(1,7)], {a}⟩` share the canonical key
`"a1"`; the search run from the start stores 2 under that key (the value
of the first state), while the non-memoized value of the second state is
6. -/
theorem memo_collision_counterexample :
    stateKey mazeDup ⟨[(1, 7)], 1⟩ = stateKey mazeDup ⟨[(1, 3)], 1⟩ ∧
    (⟨[(1, 7)], 1⟩ : StateE) ≠ ⟨[(1, 3)], 1⟩ ∧
    List.lookup (stateKey mazeDup ⟨[(1, 7)], 1⟩)
      (shortestPathF mazeDup 30 ⟨startCells mazeDup, 0⟩ []).2 = some 2 ∧
    solvePure mazeDup 30 ⟨[(1, 7)], 1⟩ = 6 := by
  refine ⟨rfl, by decide, rfl, rfl⟩

/-- `solvePure` does not depend on the fuel once the fuel exceeds the number
of missing keys. -/
theorem solvePure_stable (g : Grid) :
    ∀ n s f1 f2, missingCount g s ≤ n → missingCount g s < f1 →
      missingCount g s < f2 → solvePure g f1 s = solvePure g f2 s := by
  intro n
  induction n using Nat.strong_induction_on with
  | _ n ih =>
      intro s f1 f2 hn h1 h2
      match f1, f2 with
      | m1 + 1, m2 + 1 =>
          simp only [solvePure]
          by_cases hb : s.keys = mazeKeys g
          · rw [if_pos hb, if_pos hb]
          · rw [if_neg hb, if_neg hb]
            refine foldl_congr_mem _ _ _ (fun b ic _ => ?_) 0
            rw [pureCellStep, pureCellStep]
            refine foldl_congr_mem _ _ _ (fun b' p hp => ?_) b
            rw [purePathStep, purePathStep]
            by_cases hskip : (contains s.keys (charAt g p.dest) ||
                ! containsAll s.keys p.reqKeys) = true
            · rw [if_pos hskip, if_pos hskip]
            · rw [if_neg hskip, if_neg hskip]
              have hor : (contains s.keys (charAt g p.dest) ||
                  ! containsAll s.keys p.reqKeys) = false := by
                cases hx : (contains s.keys (charAt g p.dest) ||
                    ! containsAll s.keys p.reqKeys)
                · rfl
                · exact absurd hx hskip
              have hcont : contains s.keys (charAt g p.dest) = false :=
                (Bool.or_eq_false_iff.mp hor).1
              have hkey := pathsOf_key_dest g ic.2 p hp
              have hlt := eligible_missing_lt g s ic.1 p hkey hcont
              have hrec : solvePure g m1
                  ⟨s.cells.set ic.1 p.dest, plus s.keys (charAt g p.dest)⟩ =
                  solvePure g m2
                  ⟨s.cells.set ic.1 p.dest, plus s.keys (charAt g p.dest)⟩ := by
                refine ih (missingCount g
                  ⟨s.cells.set ic.1 p.dest, plus s.keys (charAt g p.dest)⟩)
                  (lt_of_lt_of_le hlt hn) _ _ _ le_rfl ?_ ?_
                · omega
                · omega
              simp only [hrec]

/-- Evaluating decimal digits: `decDigits` is a left inverse of the digit
value fold when the fuel is adequate. -/
theorem decDigits_val :
    ∀ fuel n, n < 10 ^ fuel →
      (decDigits fuel n).foldl (fun a d => a * 10 + (d - 48)) 0 = n := by
  intro fuel
  induction fuel with
  | zero =>
      intro n hn
      have hz : n = 0 := by omega
      subst hz
      rfl
  | succ fuel ih =>
      intro n hn
      rw [decDigits]
      by_cases h : n < 10
      · rw [if_pos h]
        simp
      · rw [if_neg h, List.foldl_append]
        have hdiv : n / 10 < 10 ^ fuel := by
          rw [pow_succ'] at hn
          exact Nat.div_lt_of_lt_mul hn
        rw [ih (n / 10) hdiv]
        show n / 10 * 10 + (48 + n % 10 - 48) = n
        omega

/-- Fuel `n + 1` is always adequate for `decDigits`. -/
theorem repBytes_val (n : Nat) :
    (repBytes n).foldl (fun a d => a * 10 + (d - 48)) 0 = n :=
  decDigits_val (n + 1) n (lt_of_lt_of_le (Nat.lt_two_pow n)
    (by
      apply Nat.pow_le_pow_left
      omega) |>.trans_le (Nat.pow_le_pow_right (by norm_num) (Nat.le_succ n)))

/-- `repBytes` is injective. -/
theorem repBytes_inj {m n : Nat} (h : repBytes m = repBytes n) : m = n := by
  have hm := repBytes_val m
  have hn := repBytes_val n
  rw [h] at hm
  omega

/-- Every byte of `repBytes` is an ASCII digit. -/
theorem decDigits_digits :
    ∀ fuel n d, d ∈ decDigits fuel n → 48 ≤ d ∧ d ≤ 57 := by
  intro fuel
  induction fuel with
  | zero => intro n d hd; simp [decDigits] at hd
  | succ fuel ih =>
      intro n d hd
      rw [decDigits] at hd
      split at hd
      · rw [List.mem_singleton] at hd
        omega
      · rcases List.mem_append.mp hd with hd | hd
        · exact ih _ _ hd
        · rw [List.mem_singleton] at hd
          have := Nat.mod_lt n (y := 10) (by norm_num)
          omega

/-- `repBytes` is never empty. -/
theorem repBytes_ne_nil (n : Nat) : repBytes n ≠ [] := by
  rw [repBytes, decDigits]
  split
  · simp
  · simp

/-- Splitting a byte string into a non-digit part and a digit-headed part is
unambiguous. -/
theorem append_digits_inj :
    ∀ (l1 l2 r1 r2 : List Nat), (∀ x ∈ l1, ¬ (48 ≤ x ∧ x ≤ 57)) →
      (∀ x ∈ l2, ¬ (48 ≤ x ∧ x ≤ 57)) →
      (∀ x ∈ r1, 48 ≤ x ∧ x ≤ 57) → (∀ x ∈ r2, 48 ≤ x ∧ x ≤ 57) →
      l1 ++ r1 = l2 ++ r2 → l1 = l2 ∧ r1 = r2 := by
  intro l1
  induction l1 with
  | nil =>
      intro l2 r1 r2 _ hl2 hr1 _ heq
      match l2 with
      | [] => exact ⟨rfl, heq⟩
      | y :: l2' =>
          exfalso
          rw [List.nil_append] at heq
          have hy : y ∈ r1 := heq ▸ List.mem_cons_self _ _
          exact hl2 y (List.mem_cons_self _ _) (hr1 y hy)
  | cons x l1' ih =>
      intro l2 r1 r2 hl1 hl2 hr1 hr2 heq
      match l2 with
      | [] =>
          exfalso
          rw [List.nil_append] at heq
          have hx : x ∈ r2 := heq ▸ List.mem_cons_self _ _
          exact hl1 x (List.mem_cons_self _ _) (hr2 x hx)
      | y :: l2' =>
          rw [List.cons_append, List.cons_append] at heq
          have hxy := List.head_eq_of_cons_eq heq
          have htl := List.tail_eq_of_cons_eq heq
          have := ih l2' r1 r2 (fun z hz => hl1 z (List.mem_cons_of_mem _ hz))
            (fun z hz => hl2 z (List.mem_cons_of_mem _ hz)) hr1 hr2 htl
          exact ⟨by rw [hxy, this.1], this.2⟩

/-- A landmark's byte is never an ASCII digit. -/
theorem landmark_not_digit {g : Grid} {c : Pos}
    (h : cellTypeOf (charAt g c) = CellType.start ∨
      cellTypeOf (charAt g c) = CellType.key) :
    ¬ (48 ≤ charAt g c ∧ charAt g c ≤ 57) := by
  rcases h with h | h
  · have := cellTypeOf_start_eq h
    omega
  · have := cellTypeOf_key_bounds h
    omega

/-- On landmark cell lists, equality of character strings lifts to equality
of cell lists when no two landmarks share a character. -/
theorem cells_inj (g : Grid)
    (hinj : ∀ p q : Pos,
      (cellTypeOf (charAt g p) = CellType.start ∨ cellTypeOf (charAt g p) = CellType.key) →
      (cellTypeOf (charAt g q) = CellType.start ∨ cellTypeOf (charAt g q) = CellType.key) →
      charAt g p = charAt g q → p = q) :
    ∀ l1 l2 : List Pos,
      (∀ c ∈ l1, cellTypeOf (charAt g c) = CellType.start ∨
        cellTypeOf (charAt g c) = CellType.key) →
      (∀ c ∈ l2, cellTypeOf (charAt g c) = CellType.start ∨
        cellTypeOf (charAt g c) = CellType.key) →
      l1.map (charAt g) = l2.map (charAt g) → l1 = l2 := by
  intro l1
  induction l1 with
  | nil =>
      intro l2 _ _ heq
      match l2 with
      | [] => rfl
      | y :: l2' => simp at heq
  | cons x l1' ih =>
      intro l2 h1 h2 heq
      match l2 with
      | [] => simp at heq
      | y :: l2' =>
          rw [List.map_cons, List.map_cons] at heq
          have hxy := List.head_eq_of_cons_eq heq
          have htl := List.tail_eq_of_cons_eq heq
          have hx := h1 x (List.mem_cons_self _ _)
          have hy := h2 y (List.mem_cons_self _ _)
          rw [hinj x y hx hy hxy,
            ih l2' (fun c hc => h1 c (List.mem_cons_of_mem _ hc))
              (fun c hc => h2 c (List.mem_cons_of_mem _ hc)) htl]

/-- When no two landmarks share a character, the canonical memo key is
injective on landmark states. -/
theorem stateKey_inj (g : Grid)
    (hinj : ∀ p q : Pos,
      (cellTypeOf (charAt g p) = CellType.start ∨ cellTypeOf (charAt g p) = CellType.key) →
      (cellTypeOf (charAt g q) = CellType.start ∨ cellTypeOf (charAt g q) = CellType.key) →
      charAt g p = charAt g q → p = q)
    (s1 s2 : StateE) (h1 : GoodState g s1) (h2 : GoodState g s2)
    (hk : stateKey g s1 = stateKey g s2) : s1 = s2 := by
  rw [stateKey, stateKey] at hk
  have hsplit := append_digits_inj (s1.cells.map (charAt g)) (s2.cells.map (charAt g))
    (repBytes s1.keys) (repBytes s2.keys)
    (by
      intro x hx
      rcases List.mem_map.mp hx with ⟨c, hc, rfl⟩
      exact landmark_not_digit (h1 c hc))
    (by
      intro x hx
      rcases List.mem_map.mp hx with ⟨c, hc, rfl⟩
      exact landmark_not_digit (h2 c hc))
    (fun x hx => decDigits_digits _ _ x hx)
    (fun x hx => decDigits_digits _ _ x hx) hk
  have hcells := cells_inj g hinj s1.cells s2.cells h1 h2 hsplit.1
  have hkeys := repBytes_inj hsplit.2
  cases s1
  cases s2
  simp only at hcells hkeys
  rw [hcells, hkeys]

/-- The empty table is coherent. -/
theorem coherent_nil (g : Grid) : Coherent g [] := by
  intro s _ v hv
  simp at hv

/-- Once every key is collected, the memoization-free search returns 0. -/
theorem solvePure_base (g : Grid) (f : Nat) (s : StateE) (hb : s.keys = mazeKeys g) :
    solvePure g f s = 0 := by
  cases f
  · rfl
  · rw [solvePure, if_pos hb]

/-- The next state of an eligible move keeps all agents on landmarks. -/
theorem goodState_next (g : Grid) (s : StateE) (i : Nat) (p : PathE)
    (hs : GoodState g s) (hkey : cellTypeOf (charAt g p.dest) = CellType.key) :
    GoodState g ⟨s.cells.set i p.dest, plus s.keys (charAt g p.dest)⟩ := by
  intro c hc
  rcases List.mem_or_eq_of_mem_set hc with hc | rfl
  · exact hs c hc
  · exact Or.inr hkey

/-- When the canonical key is injective on landmark states, the memoized
search agrees with the memoization-free search and keeps the memo table
coherent. -/
theorem spf_pure_agree (g : Grid)
    (hinj : ∀ p q : Pos,
      (cellTypeOf (charAt g p) = CellType.start ∨ cellTypeOf (charAt g p) = CellType.key) →
      (cellTypeOf (charAt g q) = CellType.start ∨ cellTypeOf (charAt g q) = CellType.key) →
      charAt g p = charAt g q → p = q) :
    ∀ n s t f, GoodState g s → missingCount g s ≤ n → missingCount g s < f →
      Coherent g t →
      (shortestPathF g f s t).1 = solvePure g 27 s ∧
      Coherent g (shortestPathF g f s t).2 := by
  intro n
  induction n using Nat.strong_induction_on with
  | _ n ih =>
      intro s t f hs hn hf ht
      match f with
      | m + 1 =>
          by_cases hb : s.keys = mazeKeys g
          · have heq : shortestPathF g (m + 1) s t = (0, t) := by
              simp only [shortestPathF]
              rw [if_pos hb]
            rw [heq]
            exact ⟨(solvePure_base g 27 s hb).symm, ht⟩
          · rcases hl : List.lookup (stateKey g s) t with _ | d
            · have PL : ∀ (i : Nat) (ps : List PathE),
                  (∀ p ∈ ps, cellTypeOf (charAt g p.dest) = CellType.key) →
                  ∀ accN accT, Coherent g accT →
                  (ps.foldl (pathStep g (fun s' t' => shortestPathF g m s' t') s i)
                      (accN, accT)).1 =
                    ps.foldl (purePathStep g (fun s' => solvePure g m s') s i) accN ∧
                  Coherent g
                    (ps.foldl (pathStep g (fun s' t' => shortestPathF g m s' t') s i)
                      (accN, accT)).2 := by
                intro i ps
                induction ps with
                | nil => intro _ accN accT hacc; exact ⟨rfl, hacc⟩
                | cons p rest ihp =>
                    intro hps accN accT hacc
                    rw [List.foldl_cons, List.foldl_cons]
                    by_cases hskip : (contains s.keys (charAt g p.dest) ||
                        ! containsAll s.keys p.reqKeys) = true
                    · have e1 : pathStep g (fun s' t' => shortestPathF g m s' t') s i
                          (accN, accT) p = (accN, accT) := by
                        rw [pathStep, if_pos hskip]
                      have e2 : purePathStep g (fun s' => solvePure g m s') s i accN p =
                          accN := by
                        rw [purePathStep, if_pos hskip]
                      rw [e1, e2]
                      exact ihp (fun q hq => hps q (List.mem_cons_of_mem _ hq)) accN accT hacc
                    · have hkeyd := hps p (List.mem_cons_self _ _)
                      have hor : (contains s.keys (charAt g p.dest) ||
                          ! containsAll s.keys p.reqKeys) = false := by
                        cases hx : (contains s.keys (charAt g p.dest) ||
                            ! containsAll s.keys p.reqKeys)
                        · rfl
                        · exact absurd hx hskip
                      have hcont : contains s.keys (charAt g p.dest) = false :=
                        (Bool.or_eq_false_iff.mp hor).1
                      have hlt := eligible_missing_lt g s i p hkeyd hcont
                      have hgood := goodState_next g s i p hs hkeyd
                      have hrecpair := ih
                        (missingCount g ⟨s.cells.set i p.dest, plus s.keys (charAt g p.dest)⟩)
                        (lt_of_lt_of_le hlt hn)
                        ⟨s.cells.set i p.dest, plus s.keys (charAt g p.dest)⟩ accT m hgood
                        le_rfl (by omega) hacc
                      have hm26 : missingCount g
                          ⟨s.cells.set i p.dest, plus s.keys (charAt g p.dest)⟩ ≤ 26 :=
                        missingK_le g _
                      have hstab : solvePure g m
                          ⟨s.cells.set i p.dest, plus s.keys (charAt g p.dest)⟩ =
                          solvePure g 27
                          ⟨s.cells.set i p.dest, plus s.keys (charAt g p.dest)⟩ :=
                        solvePure_stable g 26 _ m 27 hm26 (by omega) (by omega)
                      have e1 : pathStep g (fun s' t' => shortestPathF g m s' t') s i
                          (accN, accT) p =
                          (if accN == 0 || p.len + (shortestPathF g m
                              ⟨s.cells.set i p.dest, plus s.keys (charAt g p.dest)⟩ accT).1 <
                              accN then
                            p.len + (shortestPathF g m
                              ⟨s.cells.set i p.dest, plus s.keys (charAt g p.dest)⟩ accT).1
                          else accN,
                          (shortestPathF g m
                            ⟨s.cells.set i p.dest, plus s.keys (charAt g p.dest)⟩ accT).2) := by
                        rw [pathStep, if_neg hskip]
                      have e2 : purePathStep g (fun s' => solvePure g m s') s i accN p =
                          (if accN == 0 || p.len + solvePure g m
                              ⟨s.cells.set i p.dest, plus s.keys (charAt g p.dest)⟩ < accN then
                            p.len + solvePure g m
                              ⟨s.cells.set i p.dest, plus s.keys (charAt g p.dest)⟩
                          else accN) := by
                        rw [purePathStep, if_neg hskip]
                      rw [e1, e2, hrecpair.1, ← hstab]
                      exact ihp (fun q hq => hps q (List.mem_cons_of_mem _ hq)) _ _ hrecpair.2
              have CL : ∀ (l : List (Nat × Pos)) accN accT, Coherent g accT →
                  (l.foldl (cellStep g (fun s' t' => shortestPathF g m s' t') s)
                      (accN, accT)).1 =
                    l.foldl (pureCellStep g (fun s' => solvePure g m s') s) accN ∧
                  Coherent g
                    (l.foldl (cellStep g (fun s' t' => shortestPathF g m s' t') s)
                      (accN, accT)).2 := by
                intro l
                induction l with
                | nil => intro accN accT hacc; exact ⟨rfl, hacc⟩
                | cons ic rest ihl =>
                    intro accN accT hacc
                    rw [List.foldl_cons, List.foldl_cons, cellStep, pureCellStep]
                    have hPL := PL ic.1 (pathsOf g ic.2)
                      (fun p hp => pathsOf_key_dest g ic.2 p hp) accN accT hacc
                    have hres := ihl ((pathsOf g ic.2).foldl
                        (pathStep g (fun s' t' => shortestPathF g m s' t') s ic.1)
                        (accN, accT)).1
                      ((pathsOf g ic.2).foldl
                        (pathStep g (fun s' t' => shortestPathF g m s' t') s ic.1)
                        (accN, accT)).2 hPL.2
                    rw [Prod.mk.eta] at hres
                    rw [hPL.1] at hres
                    exact hres
              have heq : shortestPathF g (m + 1) s t =
                  ((s.cells.enum.foldl
                      (cellStep g (fun s' t' => shortestPathF g m s' t') s) (0, t)).1,
                   (stateKey g s,
                     (s.cells.enum.foldl
                       (cellStep g (fun s' t' => shortestPathF g m s' t') s) (0, t)).1) ::
                   (s.cells.enum.foldl
                     (cellStep g (fun s' t' => shortestPathF g m s' t') s) (0, t)).2) := by
                simp only [shortestPathF]
                rw [if_neg hb, hl]
              have hCL := CL s.cells.enum 0 t ht
              have hpure : solvePure g 27 s =
                  s.cells.enum.foldl (pureCellStep g (fun s' => solvePure g m s') s) 0 := by
                have hm26 : missingCount g s ≤ 26 := missingK_le g s.keys
                have hst : solvePure g 27 s = solvePure g (m + 1) s :=
                  solvePure_stable g 26 s 27 (m + 1) hm26 (by omega) (by omega)
                rw [hst, solvePure, if_neg hb]
              rw [heq]
              constructor
              · rw [hpure]
                exact hCL.1
              · intro s2 hs2 v hv
                rw [List.lookup_cons] at hv
                split at hv
                · rename_i hbeq
                  have hkeq : stateKey g s = stateKey g s2 := (beq_iff_eq.mp hbeq).symm
                  have hs2s : s2 = s := (stateKey_inj g hinj s s2 hs hs2 hkeq).symm
                  subst hs2s
                  rw [Option.some_inj] at hv
                  rw [← hv, hpure]
                  exact hCL.1
                · exact hCL.2 s2 hs2 v hv
            · have heq : shortestPathF g (m + 1) s t = (d, t) := by
                simp only [shortestPathF]
                rw [if_neg hb, hl]
              rw [heq]
              exact ⟨ht s hs d hl, ht⟩

/-- C3 amended — provided no two landmarks of the maze share a character
(so the canonical memo key is injective on landmark states), a memoized
run from any landmark state returns the value of the memoization-free
recursion, and every value it stores under a landmark state's canonical
key equals that state's memoization-free value. -/
theorem memo_correct_of_injective_chars (g : Grid)
    (hinj : ∀ p q : Pos,
      (cellTypeOf (charAt g p) = CellType.start ∨ cellTypeOf (charAt g p) = CellType.key) →
      (cellTypeOf (charAt g q) = CellType.start ∨ cellTypeOf (charAt g q) = CellType.key) →
      charAt g p = charAt g q → p = q)
    (s s2 : StateE) (v f : Nat) (hs : GoodState g s) (hs2 : GoodState g s2)
    (hf : 27 ≤ f) :
    (shortestPathF g f s []).1 = solvePure g f s ∧
    (List.lookup (stateKey g s2) (shortestPathF g f s []).2 = some v →
      v = solvePure g f s2) := by
  have hm : missingCount g s ≤ 26 := missingK_le g s.keys
  have h := spf_pure_agree g hinj 26 s [] f hs hm (by omega) (coherent_nil g)
  constructor
  · rw [h.1]
    exact solvePure_stable g 26 s 27 f hm (by omega) (by omega)
  · intro hlk
    have hm2 : missingCount g s2 ≤ 26 := missingK_le g s2.keys
    rw [h.2 s2 hs2 v hlk]
    exact solvePure_stable g 26 s2 27 f hm2 (by omega) (by omega)

/-- A non-wall byte is read from an in-bounds position. -/
theorem charAt_ne_wall_inbounds (g : Grid) (p : Pos) (h : charAt g p ≠ 35) :
    p.1 < g.length ∧ p.2 < (g.getD p.1 []).length := by
  constructor
  · by_contra hc
    push_neg at hc
    apply h
    rw [charAt_eq, List.getElem?_eq_none hc]
    rfl
  · by_contra hc
    push_neg at hc
    apply h
    rw [charAt, List.getD_eq_getElem?_getD, List.getElem?_eq_none hc]
    rfl

/-- The landmarks of `maze1` are exactly the cells `b`, `@` and `a`. -/
theorem maze1_landmarks (r : Pos)
    (h : cellTypeOf (charAt maze1 r) = CellType.start ∨
      cellTypeOf (charAt maze1 r) = CellType.key) :
    r = (1, 1) ∨ r = (1, 5) ∨ r = (1, 7) := by
  have hw : charAt maze1 r ≠ 35 := by
    rcases h with h | h
    · have := cellTypeOf_start_eq h
      omega
    · have := cellTypeOf_key_bounds h
      omega
  obtain ⟨hi, hj⟩ := charAt_ne_wall_inbounds _ _ hw
  obtain ⟨i, j⟩ := r
  have hi3 : i < 3 := hi
  interval_cases i
  all_goals
    have hj9 : j < 9 := hj
  all_goals
    interval_cases j <;> (revert h; decide)

/-- No two landmarks of `maze1` share a character. -/
theorem maze1_char_inj : ∀ p q : Pos,
    (cellTypeOf (charAt maze1 p) = CellType.start ∨
      cellTypeOf (charAt maze1 p) = CellType.key) →
    (cellTypeOf (charAt maze1 q) = CellType.start ∨
      cellTypeOf (charAt maze1 q) = CellType.key) →
    charAt maze1 p = charAt maze1 q → p = q := by
  intro p q hp hq heq
  rcases maze1_landmarks p hp with rfl | rfl | rfl <;>
    rcases maze1_landmarks q hq with rfl | rfl | rfl <;>
    first
      | rfl
      | exact absurd heq (by decide)

/-- C3 amended witness: on `maze1` (all landmark characters distinct) the
memoized search from the start state agrees with the memoization-free
search. -/
theorem memo_correct_of_injective_chars_witness :
    27 ≤ 30 ∧
    (shortestPathF maze1 30 ⟨[(1, 5)], 0⟩ []).1 = solvePure maze1 30 ⟨[(1, 5)], 0⟩ :=
  ⟨by norm_num,
    (memo_correct_of_injective_chars maze1 maze1_char_inj ⟨[(1, 5)], 0⟩ ⟨[(1, 7)], 1⟩ 6 30
      (by
        show ∀ c ∈ [((1 : Nat), (5 : Nat))],
          cellTypeOf (charAt maze1 c) = CellType.start ∨
            cellTypeOf (charAt maze1 c) = CellType.key
        decide)
      (by
        show ∀ c ∈ [((1 : Nat), (7 : Nat))],
          cellTypeOf (charAt maze1 c) = CellType.start ∨
            cellTypeOf (charAt maze1 c) = CellType.key
        decide)
      (by norm_num)).1⟩

/-- `orthAdjacent` is symmetric. -/
theorem orthAdjacent_symm {p q : Pos} (h : orthAdjacent p q) : orthAdjacent q p := by
  rcases h with ⟨h1, h2⟩ | ⟨h1, h2⟩
  · exact Or.inl ⟨h1.symm, h2.symm⟩
  · exact Or.inr ⟨h1.symm, h2.symm⟩

/-- Membership in adjacency lists after a `join`. -/
theorem joinAdj_mem (a : Pos → List Pos) (c c1 : Pos) (hne : c ≠ c1) (p q : Pos) :
    q ∈ joinAdj a c c1 p ↔ q ∈ a p ∨ (p = c ∧ q = c1) ∨ (p = c1 ∧ q = c) := by
  rw [joinAdj]
  by_cases hp1 : p = c1
  · subst hp1
    rw [Function.update_same, Function.update_noteq (Ne.symm hne)]
    simp [Ne.symm hne]
  · rw [Function.update_noteq hp1]
    by_cases hp : p = c
    · subst hp
      rw [Function.update_same]
      simp [hp1]
    · rw [Function.update_noteq hp]
      simp [hp, hp1]

/-- `joinAdj` with an orthogonal pair preserves `AdjOk`. -/
theorem joinAdj_inv (a : Pos → List Pos) (c c1 : Pos) (hne : c ≠ c1)
    (horth : orthAdjacent c c1) (hin : AdjOk a) : AdjOk (joinAdj a c c1) := by
  constructor
  · intro p q
    rw [joinAdj_mem a c c1 hne, joinAdj_mem a c c1 hne, hin.1 p q]
    constructor
    · rintro (h | ⟨rfl, rfl⟩ | ⟨rfl, rfl⟩)
      · exact Or.inl h
      · exact Or.inr (Or.inr ⟨rfl, rfl⟩)
      · exact Or.inr (Or.inl ⟨rfl, rfl⟩)
    · rintro (h | ⟨rfl, rfl⟩ | ⟨rfl, rfl⟩)
      · exact Or.inl h
      · exact Or.inr (Or.inr ⟨rfl, rfl⟩)
      · exact Or.inr (Or.inl ⟨rfl, rfl⟩)
  · intro p q h
    rw [joinAdj_mem a c c1 hne] at h
    rcases h with h | ⟨rfl, rfl⟩ | ⟨rfl, rfl⟩
    · exact hin.2 p q h
    · exact horth
    · exact orthAdjacent_symm horth

/-- A conditional `joinAdj` preserves `AdjOk` when the condition certifies
that the joined pair is a distinct orthogonal pair. -/
theorem joinAdj_cond_inv (a : Pos → List Pos) (cond : Prop) [Decidable cond]
    (c c1 : Pos) (hne : cond → c ≠ c1) (horth : cond → orthAdjacent c c1)
    (hin : AdjOk a) : AdjOk (if cond then joinAdj a c c1 else a) := by
  split
  · next hc => exact joinAdj_inv a c c1 (hne hc) (horth hc) hin
  · exact hin

/-- `addCell` preserves `AdjOk`. -/
theorem addCell_inv (h w i j ch : Nat) (st : BuildSt) (hinv : AdjOk st.adj) :
    AdjOk (addCell h w i j ch st).adj := by
  refine joinAdj_cond_inv _ _ (i, j) (i, j + 1)
    (fun _ heq => by
      have : j = j + 1 := congrArg Prod.snd heq
      omega)
    (fun _ => Or.inl ⟨rfl, Or.inr rfl⟩) ?_
  refine joinAdj_cond_inv _ _ (i, j) (i + 1, j)
    (fun _ heq => by
      have : i = i + 1 := congrArg Prod.fst heq
      omega)
    (fun _ => Or.inr ⟨rfl, Or.inr rfl⟩) ?_
  refine joinAdj_cond_inv _ _ (i, j) (i, j - 1)
    (fun hc heq => by
      have : j = j - 1 := congrArg Prod.snd heq
      omega)
    (fun hc => Or.inl ⟨rfl, Or.inl (by omega)⟩) ?_
  refine joinAdj_cond_inv _ _ (i, j) (i - 1, j)
    (fun hc heq => by
      have : i = i - 1 := congrArg Prod.fst heq
      omega)
    (fun hc => Or.inr ⟨rfl, Or.inl (by omega)⟩) ?_
  exact hinv

/-- `buildRow` preserves `AdjOk`. -/
theorem buildRow_inv (h w i : Nat) :
    ∀ (chs : List Nat) (j : Nat) (st : BuildSt),
      AdjOk st.adj → AdjOk (buildRow h w i j chs st).adj := by
  intro chs
  induction chs with
  | nil => intro j st hin; exact hin
  | cons ch rest ih =>
      intro j st hin
      rw [buildRow]
      refine ih (j + 1) _ ?_
      split
      · exact addCell_inv h w i j ch st hin
      · exact hin

/-- `buildRows` preserves `AdjOk`. -/
theorem buildRows_inv (h w : Nat) :
    ∀ (rows : List (List Nat)) (i : Nat) (st : BuildSt),
      AdjOk st.adj → AdjOk (buildRows h w i rows st).adj := by
  intro rows
  induction rows with
  | nil => intro i st hin; exact hin
  | cons row rest ih =>
      intro i st hin
      exact ih (i + 1) _ (buildRow_inv h w i row 0 st hin)

/-- The built adjacency of any maze is symmetric and orthogonal. -/
theorem adjOf_ok (g : Grid) : AdjOk (adjOf g) := by
  refine buildRows_inv g.length (g.headD []).length g 0 initSt ?_
  constructor
  · intro p q
    simp [initSt]
  · intro p q h
    simp [initSt] at h

/-- C9 — after the maze is built, the adjacency relation is symmetric, and a
cell is adjacent to another only if their positions differ by exactly one
row or one column. -/
theorem adjacency_symmetric_orthogonal (g : Grid) (p q : Pos) :
    (q ∈ adjOf g p ↔ p ∈ adjOf g q) ∧ (q ∈ adjOf g p → orthAdjacent p q) :=
  ⟨(adjOf_ok g).1 p q, (adjOf_ok g).2 p q⟩

/-- `HeapExtends` is reflexive. -/
theorem heapExtends_refl (hp : Heap) : HeapExtends hp hp :=
  ⟨le_rfl, fun _ _ => rfl⟩

/-- `HeapExtends` is transitive. -/
theorem heapExtends_trans {hp1 hp2 hp3 : Heap} (h12 : HeapExtends hp1 hp2)
    (h23 : HeapExtends hp2 hp3) : HeapExtends hp1 hp3 :=
  ⟨le_trans h12.1 h23.1,
    fun j hj => (h23.2 j (lt_of_lt_of_le hj h12.1)).trans (h12.2 j hj)⟩

/-- Allocating a fresh slice extends the heap. -/
theorem copyH_extends (hp : Heap) (s : StateH) : HeapExtends hp (copyH hp s).2 := by
  constructor
  · simp [copyH]
  · intro j hj
    show (hp ++ [readCells hp s]).getD j [] = hp.getD j []
    rw [List.getD_eq_getElem?_getD, List.getD_eq_getElem?_getD,
      List.getElem?_append_left hj]

/-- Writing into a slice allocated after `hp` leaves `hp`'s slices intact. -/
theorem writeCell_extends {hp0 hp1 : Heap} (hext : HeapExtends hp0 hp1)
    (id i : Nat) (v : Pos) (hid : hp0.length ≤ id) :
    HeapExtends hp0 (writeCell hp1 id i v) := by
  constructor
  · rw [writeCell, List.length_set]
    exact hext.1
  · intro j hj
    rw [writeCell, List.getD_eq_getElem?_getD,
      List.getElem?_set_ne (by omega), ← List.getD_eq_getElem?_getD]
    exact hext.2 j hj

/-- A fold preserves any predicate its step preserves. -/
theorem foldl_preserve {α β : Type} (P : β → Prop) (f : β → α → β) (l : List α)
    (hf : ∀ b a, P b → P (f b a)) : ∀ b, P b → P (l.foldl f b) := by
  induction l with
  | nil => intro b hb; exact hb
  | cons a rest ih =>
      intro b hb
      rw [List.foldl_cons]
      exact ih (f b a) (hf b a hb)

/-- The heap-model search only ever appends fresh slices and writes into
them: the final heap extends the initial one. -/
theorem spH_extends (g : Grid) :
    ∀ (fuel : Nat) (s : StateH) (t : Table) (hp : Heap),
      HeapExtends hp (shortestPathH g fuel s t hp).2.2 := by
  intro fuel
  induction fuel with
  | zero => intro s t hp; exact heapExtends_refl hp
  | succ fuel ih =>
      intro s t hp
      simp only [shortestPathH]
      by_cases hb : s.keys = mazeKeys g
      · rw [if_pos hb]
        exact heapExtends_refl hp
      · rw [if_neg hb]
        rcases hl : List.lookup ((readCells hp s).map (charAt g) ++ repBytes s.keys) t
          with _ | d
        · simp only [hl]
          have hfold := foldl_preserve (fun acc : Nat × Table × Heap =>
              HeapExtends hp acc.2.2)
            (cellStepH g (fun s' t' hp' => shortestPathH g fuel s' t' hp') s)
            (readCells hp s).enum
            (fun acc ic hacc => by
              rw [cellStepH]
              refine foldl_preserve (fun acc : Nat × Table × Heap =>
                HeapExtends hp acc.2.2) _ _ (fun b p hb' => ?_) acc hacc
              rw [pathStepH]
              split
              · exact hb'
              · have h1 : HeapExtends hp (copyH b.2.2 s).2 :=
                  heapExtends_trans hb' (copyH_extends b.2.2 s)
                have h2 : HeapExtends hp
                    (writeCell (copyH b.2.2 s).2 (copyH b.2.2 s).1.id ic.1 p.dest) :=
                  writeCell_extends h1 _ ic.1 p.dest
                    (le_trans hb'.1 (le_refl b.2.2.length))
                exact heapExtends_trans h2 (ih _ _ _))
            (0, t, hp) (heapExtends_refl hp)
          exact hfold
        · simp only [hl]
          exact heapExtends_refl hp

/-- C10 — `shortestPath` never mutates its state argument: the cells slice
the caller's state refers to holds the same contents after the call, and
the keyset, being a value, is unchanged by construction; every candidate
next-state is built in a freshly allocated copy. -/
theorem shortestPath_frame (g : Grid) (fuel : Nat) (s : StateH) (t : Table)
    (hp : Heap) (hid : s.id < hp.length) :
    readCells (shortestPathH g fuel s t hp).2.2 s = readCells hp s := by
  rw [readCells, readCells]
  exact (spH_extends g fuel s t hp).2 s.id hid

/-- C10 witness. -/
theorem shortestPath_frame_witness :
    (⟨0, 0⟩ : StateH).id < ([[(1, 5)]] : Heap).length ∧
    readCells (shortestPathH maze1 30 ⟨0, 0⟩ [] [[(1, 5)]]).2.2 ⟨0, 0⟩ =
      readCells [[(1, 5)]] ⟨0, 0⟩ :=
  ⟨by decide, shortestPath_frame maze1 30 ⟨0, 0⟩ [] [[(1, 5)]] (by decide)⟩

/-- A walk of positive length decomposes at its first step. -/
theorem walk_head (adj : Pos → List Pos) (src : Pos) :
    ∀ n t, walk adj src (n + 1) t → ∃ a ∈ adj src, walk adj a n t := by
  intro n
  induction n with
  | zero =>
      intro t ht
      rcases ht with ⟨v, hv, hadj⟩
      rw [walk] at hv
      subst hv
      exact ⟨t, hadj, rfl⟩
  | succ n ih =>
      intro t ht
      rcases ht with ⟨v, hv, hadj⟩
      rcases ih v hv with ⟨a, ha, hw⟩
      exact ⟨a, ha, ⟨v, hw, hadj⟩⟩

/-- Membership in `cellsFin`. -/
theorem mem_cellsFin {g : Grid} {p : Pos} :
    p ∈ cellsFin g ↔
      p.1 < g.length ∧ p.2 < (g.getD p.1 []).length ∧ charAt g p ≠ 35 := by
  obtain ⟨i, j⟩ := p
  rw [cellsFin, Finset.mem_biUnion]
  constructor
  · rintro ⟨i', hi', hj⟩
    rw [Finset.mem_image] at hj
    rcases hj with ⟨j', hj', hpq⟩
    rw [Finset.mem_filter, Finset.mem_range] at hj'
    obtain ⟨rfl, rfl⟩ : i' = i ∧ j' = j := by
      have h1 := congrArg Prod.fst hpq
      have h2 := congrArg Prod.snd hpq
      exact ⟨h1, h2⟩
    exact ⟨Finset.mem_range.mp hi', hj'.1, hj'.2⟩
  · rintro ⟨hi, hj, hw⟩
    refine ⟨i, Finset.mem_range.mpr hi, ?_⟩
    rw [Finset.mem_image]
    exact ⟨j, Finset.mem_filter.mpr ⟨Finset.mem_range.mpr hj, hw⟩, rfl⟩

/-- Summing the row lengths over the row indices is `gridSize`. -/
theorem sum_row_lengths :
    ∀ g : Grid, (∑ i ∈ Finset.range g.length, (g.getD i []).length) = gridSize g := by
  intro g
  induction g with
  | nil => rfl
  | cons row rest ih =>
      rw [gridSize, List.map_cons, List.sum_cons]
      show (∑ i ∈ Finset.range (rest.length + 1),
        ((row :: rest).getD i []).length) = row.length + (rest.map List.length).sum
      rw [Finset.sum_range_succ']
      simp only [List.getD_cons_succ, List.getD_cons_zero]
      rw [show (∑ i ∈ Finset.range rest.length, (rest.getD i []).length) =
        gridSize rest from ih, gridSize]
      omega

/-- The number of cells is at most the number of grid bytes. -/
theorem cellsFin_card_le (g : Grid) : (cellsFin g).card ≤ gridSize g := by
  rw [cellsFin]
  refine le_trans (Finset.card_biUnion_le) ?_
  rw [← sum_row_lengths g]
  refine Finset.sum_le_sum (fun i _ => ?_)
  refine le_trans Finset.card_image_le ?_
  exact le_trans (Finset.card_filter_le _ _) (by rw [Finset.card_range])

/-- Reading a byte that both index lookups resolve. -/
theorem charAt_of_getElem? {g : Grid} {r d : Nat} {row : List Nat} {ch : Nat}
    (hr : g[r]? = some row) (hd : row[d]? = some ch) : charAt g (r, d) = ch := by
  rw [charAt_eq]
  show ((g[r]?.getD [])[d]?).getD 35 = ch
  rw [hr, Option.getD_some, hd, Option.getD_some]

/-- A conditional `joinAdj` preserves list-boundedness when the condition
certifies both endpoints placed. -/
theorem joinAdj_cond_bnd (pl : Pos → Bool) (a : Pos → List Pos) (cond : Prop)
    [Decidable cond] (c c1 : Pos) (hne : cond → c ≠ c1)
    (hc : cond → pl c = true) (hc1 : cond → pl c1 = true)
    (hin : ∀ p q : Pos, q ∈ a p → pl p = true ∧ pl q = true) :
    ∀ p q : Pos, q ∈ (if cond then joinAdj a c c1 else a) p →
      pl p = true ∧ pl q = true := by
  split
  · next hcond =>
      intro p q h
      rw [joinAdj_mem a c c1 (hne hcond)] at h
      rcases h with h | ⟨rfl, rfl⟩ | ⟨rfl, rfl⟩
      · exact hin p q h
      · exact ⟨hc hcond, hc1 hcond⟩
      · exact ⟨hc1 hcond, hc hcond⟩
  · exact hin

/-- `addCell` at a real cell position preserves `AdjBnd`. -/
theorem addCell_bnd (g : Grid) (h w i j ch : Nat) (st : BuildSt)
    (hmem : ((i : Nat), (j : Nat)) ∈ cellsFin g) (hinv : AdjBnd g st) :
    AdjBnd g (addCell h w i j ch st) := by
  constructor
  · intro p hp
    by_cases hpij : p = (i, j)
    · rw [hpij]
      exact hmem
    · rw [show (addCell h w i j ch st).placed = Function.update st.placed (i, j) true
          from rfl, Function.update_noteq hpij] at hp
      exact hinv.1 p hp
  · show ∀ p q : Pos, q ∈ (addCell h w i j ch st).adj p →
      (addCell h w i j ch st).placed p = true ∧ (addCell h w i j ch st).placed q = true
    refine joinAdj_cond_bnd _ _ _ (i, j) (i, j + 1)
      (fun _ heq => by
        have : j = j + 1 := congrArg Prod.snd heq
        omega)
      (fun _ => Function.update_same _ _ _) (fun hc => hc.2) ?_
    refine joinAdj_cond_bnd _ _ _ (i, j) (i + 1, j)
      (fun _ heq => by
        have : i = i + 1 := congrArg Prod.fst heq
        omega)
      (fun _ => Function.update_same _ _ _) (fun hc => hc.2) ?_
    refine joinAdj_cond_bnd _ _ _ (i, j) (i, j - 1)
      (fun hc heq => by
        have : j = j - 1 := congrArg Prod.snd heq
        omega)
      (fun _ => Function.update_same _ _ _) (fun hc => hc.2) ?_
    refine joinAdj_cond_bnd _ _ _ (i, j) (i - 1, j)
      (fun hc heq => by
        have : i = i - 1 := congrArg Prod.fst heq
        omega)
      (fun _ => Function.update_same _ _ _) (fun hc => hc.2) ?_
    intro p q hq
    have := hinv.2 p q hq
    constructor
    · show Function.update st.placed (i, j) true p = true
      by_cases hp : p = (i, j)
      · rw [hp]
        exact Function.update_same _ _ _
      · rw [Function.update_noteq hp]
        exact this.1
    · show Function.update st.placed (i, j) true q = true
      by_cases hq' : q = (i, j)
      · rw [hq']
        exact Function.update_same _ _ _
      · rw [Function.update_noteq hq']
        exact this.2

/-- `buildRow` preserves `AdjBnd` when the scanned bytes are the grid row's. -/
theorem buildRow_bnd (g : Grid) (h w i : Nat) :
    ∀ (chs : List Nat) (j : Nat) (st : BuildSt),
      (∀ d ch, chs[d]? = some ch → ch ≠ 35 → ((i : Nat), j + d) ∈ cellsFin g) →
      AdjBnd g st → AdjBnd g (buildRow h w i j chs st) := by
  intro chs
  induction chs with
  | nil => intro j st _ hinv; exact hinv
  | cons ch rest ih =>
      intro j st hpos hinv
      rw [buildRow]
      refine ih (j + 1) _ (fun d ch' hd hne => ?_) ?_
      · have := hpos (d + 1) ch' (by rw [List.getElem?_cons_succ]; exact hd) hne
        rw [show j + (d + 1) = j + 1 + d by omega] at this
        exact this
      · split
        · next hne =>
            exact addCell_bnd g h w i j ch st
              (by
                have := hpos 0 ch (List.getElem?_cons_zero) hne
                rw [Nat.add_zero] at this
                exact this) hinv
        · exact hinv

/-- `buildRows` preserves `AdjBnd` when the scanned rows are the grid's. -/
theorem buildRows_bnd (g : Grid) (h w : Nat) :
    ∀ (rows : List (List Nat)) (i : Nat) (st : BuildSt),
      (∀ r row, rows[r]? = some row →
        ∀ d ch, row[d]? = some ch → ch ≠ 35 → ((i + r : Nat), (d : Nat)) ∈ cellsFin g) →
      AdjBnd g st → AdjBnd g (buildRows h w i rows st) := by
  intro rows
  induction rows with
  | nil => intro i st _ hinv; exact hinv
  | cons row0 rest ih =>
      intro i st hpos hinv
      refine ih (i + 1) _ (fun r row hr d ch hd hne => ?_) ?_
      · have := hpos (r + 1) row (by rw [List.getElem?_cons_succ]; exact hr) d ch hd hne
        rw [show i + (r + 1) = i + 1 + r by omega] at this
        exact this
      · refine buildRow_bnd g h w i row0 0 st (fun d ch hd hne => ?_) hinv
        have := hpos 0 row0 (List.getElem?_cons_zero) d ch hd hne
        rw [Nat.add_zero] at this
        rw [Nat.zero_add]
        exact this

/-- Adjacency lists of the built maze mention only real cells. -/
theorem adjOf_bnd (g : Grid) : ∀ p q : Pos, q ∈ adjOf g p → q ∈ cellsFin g := by
  have hb : AdjBnd g (buildSt g) := by
    refine buildRows_bnd g g.length (g.headD []).length g 0 initSt
      (fun r row hr d ch hd hne => ?_) ?_
    · rw [mem_cellsFin]
      rcases List.getElem?_eq_some_iff.mp hr with ⟨hrlt, hrow⟩
      rcases List.getElem?_eq_some_iff.mp hd with ⟨hdlt, hch⟩
      refine ⟨?_, ?_, ?_⟩
      · show 0 + r < g.length
        omega
      · show d < (g.getD (0 + r) []).length
        rw [Nat.zero_add, List.getD_eq_getElem?_getD, hr, Option.getD_some]
        exact hdlt
      · show charAt g (0 + r, d) ≠ 35
        rw [Nat.zero_add, charAt_of_getElem? hr hd]
        exact hne
    · exact ⟨fun p hp => by simp [initSt] at hp, fun p q hq => by simp [initSt] at hq⟩
  intro p q hq
  exact hb.1 q (hb.2 p q hq).2

/-- Unfolding `enqueueNbrs` on an empty neighbour list. -/
theorem enqueueNbrs_nil (g : Grid) (cur : PathE) (acc : List Pos × List PathE) :
    enqueueNbrs g cur [] acc = acc := rfl

/-- Unfolding `enqueueNbrs` on one neighbour. -/
theorem enqueueNbrs_cons (g : Grid) (cur : PathE) (b : Pos) (rest : List Pos)
    (acc : List Pos × List PathE) :
    enqueueNbrs g cur (b :: rest) acc =
      enqueueNbrs g cur rest
        (if b ∈ acc.1 then acc
         else (b :: acc.1, acc.2 ++ [⟨cur.len + 1, b,
           if cellTypeOf (charAt g b) = CellType.door then
             plus cur.reqKeys (charAt g b ||| 32)
           else cur.reqKeys⟩])) := rfl

/-- The neighbour scan only grows the seen set. -/
theorem enq_seen_mono (g : Grid) (cur : PathE) :
    ∀ (nbrs : List Pos) (acc : List Pos × List PathE) (x : Pos),
      x ∈ acc.1 → x ∈ (enqueueNbrs g cur nbrs acc).1 := by
  intro nbrs
  induction nbrs with
  | nil => intro acc x hx; exact hx
  | cons b rest ih =>
      intro acc x hx
      rw [enqueueNbrs_cons]
      split
      · exact ih acc x hx
      · exact ih _ x (List.mem_cons_of_mem _ hx)

/-- Everything the scan marks seen was seen before or is a neighbour. -/
theorem enq_seen_sub (g : Grid) (cur : PathE) :
    ∀ (nbrs : List Pos) (acc : List Pos × List PathE) (x : Pos),
      x ∈ (enqueueNbrs g cur nbrs acc).1 → x ∈ acc.1 ∨ x ∈ nbrs := by
  intro nbrs
  induction nbrs with
  | nil => intro acc x hx; exact Or.inl hx
  | cons b rest ih =>
      intro acc x hx
      rw [enqueueNbrs_cons] at hx
      split at hx
      · rcases ih acc x hx with h | h
        · exact Or.inl h
        · exact Or.inr (List.mem_cons_of_mem _ h)
      · rcases ih _ x hx with h | h
        · rcases List.mem_cons.mp h with rfl | h
          · exact Or.inr (List.mem_cons_self _ _)
          · exact Or.inl h
        · exact Or.inr (List.mem_cons_of_mem _ h)

/-- The scan only appends queue entries. -/
theorem enq_entries_mono (g : Grid) (cur : PathE) :
    ∀ (nbrs : List Pos) (acc : List Pos × List PathE) (e : PathE),
      e ∈ acc.2 → e ∈ (enqueueNbrs g cur nbrs acc).2 := by
  intro nbrs
  induction nbrs with
  | nil => intro acc e he; exact he
  | cons b rest ih =>
      intro acc e he
      rw [enqueueNbrs_cons]
      split
      · exact ih acc e he
      · exact ih _ e (List.mem_append_left _ he)

/-- Characterization of the entries appended by the neighbour scan. -/
theorem enq_entries (g : Grid) (cur : PathE) :
    ∀ (nbrs : List Pos) (acc : List Pos × List PathE) (e : PathE),
      e ∈ (enqueueNbrs g cur nbrs acc).2 →
      e ∈ acc.2 ∨ (e.dest ∈ nbrs ∧ e.dest ∉ acc.1 ∧ e.len = cur.len + 1 ∧
        e.dest ∈ (enqueueNbrs g cur nbrs acc).1 ∧
        e.reqKeys = (if cellTypeOf (charAt g e.dest) = CellType.door then
          plus cur.reqKeys (charAt g e.dest ||| 32) else cur.reqKeys)) := by
  intro nbrs
  induction nbrs with
  | nil => intro acc e he; exact Or.inl he
  | cons b rest ih =>
      intro acc e he
      rw [enqueueNbrs_cons] at he ⊢
      split at he
      · next hbm =>
          rw [if_pos hbm]
          rcases ih acc e he with h | ⟨h1, h2, h3, h4, h5⟩
          · exact Or.inl h
          · exact Or.inr ⟨List.mem_cons_of_mem _ h1, h2, h3, h4, h5⟩
      · next hbm =>
          rw [if_neg hbm]
          rcases ih _ e he with h | ⟨h1, h2, h3, h4, h5⟩
          · rcases List.mem_append.mp h with h | h
            · exact Or.inl h
            · rcases List.mem_singleton.mp h with rfl
              refine Or.inr ⟨List.mem_cons_self _ _, hbm, rfl, ?_, rfl⟩
              exact enq_seen_mono g cur rest _ b (List.mem_cons_self _ _)
          · refine Or.inr ⟨List.mem_cons_of_mem _ h1, fun hc => h2
              (List.mem_cons_of_mem _ hc), h3, h4, h5⟩

/-- Every scanned neighbour ends up seen. -/
theorem enq_nbrs_seen (g : Grid) (cur : PathE) :
    ∀ (nbrs : List Pos) (acc : List Pos × List PathE) (b : Pos),
      b ∈ nbrs → b ∈ (enqueueNbrs g cur nbrs acc).1 := by
  intro nbrs
  induction nbrs with
  | nil => intro acc b hb; simp at hb
  | cons b0 rest ih =>
      intro acc b hb
      rw [enqueueNbrs_cons]
      rcases List.mem_cons.mp hb with rfl | hb
      · split
        · next hbm => exact enq_seen_mono g cur rest acc b hbm
        · exact enq_seen_mono g cur rest _ b (List.mem_cons_self _ _)
      · split
        · exact ih acc b hb
        · exact ih _ b hb

/-- Every scanned neighbour was already seen or receives a queue entry. -/
theorem enq_nbr_entry (g : Grid) (cur : PathE) :
    ∀ (nbrs : List Pos) (acc : List Pos × List PathE) (b : Pos),
      b ∈ nbrs → b ∈ acc.1 ∨ ∃ e ∈ (enqueueNbrs g cur nbrs acc).2, e.dest = b := by
  intro nbrs
  induction nbrs with
  | nil => intro acc b hb; simp at hb
  | cons b0 rest ih =>
      intro acc b hb
      rw [enqueueNbrs_cons]
      rcases List.mem_cons.mp hb with rfl | hb
      · split
        · next hbm => exact Or.inl hbm
        · refine Or.inr ⟨⟨cur.len + 1, b,
            if cellTypeOf (charAt g b) = CellType.door then
              plus cur.reqKeys (charAt g b ||| 32) else cur.reqKeys⟩, ?_, rfl⟩
          exact enq_entries_mono g cur rest _ _
            (List.mem_append_right _ (List.mem_singleton.mpr rfl))
      · split
        · exact ih acc b hb
        · rcases ih (b0 :: acc.1, acc.2 ++ [⟨cur.len + 1, b0,
              if cellTypeOf (charAt g b0) = CellType.door then
                plus cur.reqKeys (charAt g b0 ||| 32) else cur.reqKeys⟩]) b hb with h | h
          · rcases List.mem_cons.mp h with rfl | h
            · refine Or.inr ⟨⟨cur.len + 1, b,
                if cellTypeOf (charAt g b) = CellType.door then
                  plus cur.reqKeys (charAt g b ||| 32) else cur.reqKeys⟩, ?_, rfl⟩
              exact enq_entries_mono g cur rest _ _
                (List.mem_append_right _ (List.mem_singleton.mpr rfl))
            · exact Or.inl h
          · exact Or.inr h

/-- The BFS measure does not grow across one neighbour scan. -/
theorem enq_measure (g : Grid) (cur : PathE) (univ : Finset Pos) :
    ∀ (nbrs : List Pos) (acc : List Pos × List PathE), (∀ b ∈ nbrs, b ∈ univ) →
      2 * (univ \ (enqueueNbrs g cur nbrs acc).1.toFinset).card +
        (enqueueNbrs g cur nbrs acc).2.length ≤
      2 * (univ \ acc.1.toFinset).card + acc.2.length := by
  intro nbrs
  induction nbrs with
  | nil => intro acc _; exact le_rfl
  | cons b rest ih =>
      intro acc hU
      rw [enqueueNbrs_cons]
      split
      · exact ih acc (fun x hx => hU x (List.mem_cons_of_mem _ hx))
      · next hbm =>
          have hstep := ih (b :: acc.1, acc.2 ++ [⟨cur.len + 1, b,
            if cellTypeOf (charAt g b) = CellType.door then
              plus cur.reqKeys (charAt g b ||| 32) else cur.reqKeys⟩])
            (fun x hx => hU x (List.mem_cons_of_mem _ hx))
          have hbu : b ∈ univ := hU b (List.mem_cons_self _ _)
          have hbmem : b ∈ univ \ acc.1.toFinset :=
            Finset.mem_sdiff.mpr ⟨hbu, fun hc => hbm (List.mem_toFinset.mp hc)⟩
          have herase : univ \ (b :: acc.1).toFinset = (univ \ acc.1.toFinset).erase b := by
            rw [List.toFinset_cons, Finset.sdiff_insert]
          have hcard : ((univ \ acc.1.toFinset).erase b).card =
              (univ \ acc.1.toFinset).card - 1 := Finset.card_erase_of_mem hbmem
          have hpos : 1 ≤ (univ \ acc.1.toFinset).card :=
            Finset.card_pos.mpr ⟨b, hbmem⟩
          have hlen : (acc.2 ++ [(⟨cur.len + 1, b,
              if cellTypeOf (charAt g b) = CellType.door then
                plus cur.reqKeys (charAt g b ||| 32) else cur.reqKeys⟩ : PathE)]).length =
              acc.2.length + 1 := by
            rw [List.length_append]
            rfl
          refine le_trans hstep ?_
          show 2 * (univ \ (b :: acc.1).toFinset).card + _ ≤ _
          rw [herase, hcard, hlen]
          omega

/-- A list is pairwise related when any two members are. -/
theorem pairwise_of_forall_mem {α : Type} {R : α → α → Prop} :
    ∀ l : List α, (∀ a ∈ l, ∀ b ∈ l, R a b) → l.Pairwise R := by
  intro l
  induction l with
  | nil => intro _; exact List.Pairwise.nil
  | cons a rest ih =>
      intro h
      rw [List.pairwise_cons]
      exact ⟨fun b hb => h a (List.mem_cons_self _ _) b (List.mem_cons_of_mem _ hb),
        ih (fun x hx y hy => h x (List.mem_cons_of_mem _ hx) y (List.mem_cons_of_mem _ hy))⟩

/-- Frontier cut: any walk from the source to an unseen cell passes through
a queue entry. -/
theorem bfs_cut {adj : Pos → List Pos} {c : Pos} {q : List PathE} {seen : List Pos}
    (hinv : BfsInv adj c q seen) :
    ∀ n t, t ∉ seen → walk adj c n t →
      ∃ e ∈ q, ∃ k, walk adj e.dest k t ∧ e.len + k ≤ n := by
  obtain ⟨hc, hdest, hexact, hsort, hwidth, hproc⟩ := hinv
  intro n
  induction n with
  | zero =>
      intro t ht hw
      rw [walk] at hw
      subst hw
      exact absurd hc ht
  | succ n ih =>
      intro t ht hw
      rcases hw with ⟨v, hv, hadj⟩
      by_cases hvs : v ∈ seen
      · rcases hproc v hvs with ⟨e, he, hed⟩ | hall
        · refine ⟨e, he, 1, ⟨e.dest, rfl, by rw [hed]; exact hadj⟩, ?_⟩
          have : e.len ≤ n := (hexact e he).2 n (by rw [hed]; exact hv)
          omega
        · exact absurd (hall t hadj) ht
      · rcases ih v hvs hv with ⟨e, he, k, hwk, hlek⟩
        exact ⟨e, he, k + 1, ⟨v, hwk, hadj⟩, by omega⟩

/-- Any walk from a seen cell to an unseen cell passes through a queue
entry, without increasing the hop count. -/
theorem bfs_cut2 {adj : Pos → List Pos} {c : Pos} {q : List PathE} {seen : List Pos}
    (hinv : BfsInv adj c q seen) :
    ∀ k a t, t ∉ seen → a ∈ seen → walk adj a k t →
      ∃ e ∈ q, ∃ k', k' ≤ k ∧ walk adj e.dest k' t := by
  obtain ⟨hc, hdest, hexact, hsort, hwidth, hproc⟩ := hinv
  intro k
  induction k with
  | zero =>
      intro a t ht ha hw
      rw [walk] at hw
      subst hw
      exact absurd ha ht
  | succ k ih =>
      intro a t ht ha hw
      rcases hproc a ha with ⟨e, he, hed⟩ | hall
      · exact ⟨e, he, k + 1, le_rfl, by rw [hed]; exact hw⟩
      · rcases walk_head adj a k t hw with ⟨b, hb, hwb⟩
        rcases ih b t ht (hall b hb) hwb with ⟨e, he, k', hk', hwk⟩
        exact ⟨e, he, k', by omega, hwk⟩

/-- One BFS dequeue step preserves the loop invariant. -/
theorem bfs_step (g : Grid) (adj : Pos → List Pos) (c : Pos) (cur : PathE)
    (rest : List PathE) (seen : List Pos)
    (hinv : BfsInv adj c (cur :: rest) seen) :
    BfsInv adj c (rest ++ (enqueueNbrs g cur (adj cur.dest) (seen, [])).2)
      (enqueueNbrs g cur (adj cur.dest) (seen, [])).1 := by
  have hc := hinv.1
  have hdest := hinv.2.1
  have hexact := hinv.2.2.1
  have hsort := hinv.2.2.2.1
  have hwidth := hinv.2.2.2.2.1
  have hproc := hinv.2.2.2.2.2
  have hcurdist := hexact cur (List.mem_cons_self _ _)
  have hcurseen := hdest cur (List.mem_cons_self _ _)
  have hheadmin : ∀ e ∈ rest, cur.len ≤ e.len := (List.pairwise_cons.mp hsort).1
  have hrestsort : List.Pairwise (fun e e' : PathE => e.len ≤ e'.len) rest :=
    (List.pairwise_cons.mp hsort).2
  have hnew : ∀ e ∈ (enqueueNbrs g cur (adj cur.dest) (seen, [])).2,
      e.dest ∈ adj cur.dest ∧ e.dest ∉ seen ∧ e.len = cur.len + 1 ∧
      e.dest ∈ (enqueueNbrs g cur (adj cur.dest) (seen, [])).1 := by
    intro e he
    rcases enq_entries g cur _ _ e he with h | ⟨h1, h2, h3, h4, h5⟩
    · simp at h
    · exact ⟨h1, h2, h3, h4⟩
  have hseenmono : ∀ x ∈ seen, x ∈ (enqueueNbrs g cur (adj cur.dest) (seen, [])).1 :=
    fun x hx => enq_seen_mono g cur _ (seen, []) x hx
  have hseensub : ∀ x ∈ (enqueueNbrs g cur (adj cur.dest) (seen, [])).1,
      x ∈ seen ∨ x ∈ adj cur.dest :=
    fun x hx => enq_seen_sub g cur _ (seen, []) x hx
  have hnbrsseen : ∀ b ∈ adj cur.dest,
      b ∈ (enqueueNbrs g cur (adj cur.dest) (seen, [])).1 :=
    fun b hb => enq_nbrs_seen g cur _ (seen, []) b hb
  have hnbrentry : ∀ b ∈ adj cur.dest,
      b ∈ seen ∨ ∃ e ∈ (enqueueNbrs g cur (adj cur.dest) (seen, [])).2, e.dest = b :=
    fun b hb => enq_nbr_entry g cur _ (seen, []) b hb
  have hnewdist : ∀ e ∈ (enqueueNbrs g cur (adj cur.dest) (seen, [])).2,
      DistIs adj c e.dest e.len := by
    intro e he
    obtain ⟨h1, h2, h3, h4⟩ := hnew e he
    constructor
    · rw [h3]
      exact ⟨cur.dest, hcurdist.1, h1⟩
    · intro m hm
      rcases bfs_cut hinv m e.dest h2 hm with ⟨e0, he0, k, hwk, hlek⟩
      cases k with
      | zero =>
          rw [walk] at hwk
          exact absurd (by rw [hwk]; exact hdest e0 he0) h2
      | succ k' =>
          have hcur0 : cur.len ≤ e0.len := by
            rcases List.mem_cons.mp he0 with rfl | h
            · exact le_rfl
            · exact hheadmin e0 h
          omega
  refine ⟨hseenmono c hc, ?_, ?_, ?_, ?_, ?_⟩
  · intro e he
    rcases List.mem_append.mp he with he | he
    · exact hseenmono _ (hdest e (List.mem_cons_of_mem _ he))
    · exact (hnew e he).2.2.2
  · intro e he
    rcases List.mem_append.mp he with he | he
    · exact hexact e (List.mem_cons_of_mem _ he)
    · exact hnewdist e he
  · rw [List.pairwise_append]
    refine ⟨hrestsort, ?_, ?_⟩
    · refine pairwise_of_forall_mem _ (fun a ha b hb => ?_)
      rw [(hnew a ha).2.2.1, (hnew b hb).2.2.1]
    · intro a ha b hb
      rw [(hnew b hb).2.2.1]
      exact hwidth a (List.mem_cons_of_mem _ ha) cur (List.mem_cons_self _ _)
  · intro e he e' he'
    rcases List.mem_append.mp he with he | he <;>
      rcases List.mem_append.mp he' with he' | he'
    · exact hwidth e (List.mem_cons_of_mem _ he) e' (List.mem_cons_of_mem _ he')
    · rw [(hnew e' he').2.2.1]
      have := hwidth e (List.mem_cons_of_mem _ he) cur (List.mem_cons_self _ _)
      omega
    · rw [(hnew e he).2.2.1]
      have := hheadmin e' he'
      omega
    · rw [(hnew e he).2.2.1, (hnew e' he').2.2.1]
      omega
  · intro a ha
    by_cases has : a ∈ seen
    · rcases hproc a has with ⟨e, he, hed⟩ | hall
      · rcases List.mem_cons.mp he with rfl | hrest
        · refine Or.inr (fun b hb => ?_)
          rw [← hed] at hb
          exact hnbrsseen b hb
        · exact Or.inl ⟨e, List.mem_append_left _ hrest, hed⟩
      · exact Or.inr (fun b hb => hseenmono b (hall b hb))
    · rcases hseensub a ha with h | h
      · exact absurd h has
      · rcases hnbrentry a h with h' | ⟨e, he, hed⟩
        · exact absurd h' has
        · exact Or.inl ⟨e, List.mem_append_right _ he, hed⟩

/-- BFS soundness: with the invariant established and enough fuel, every
returned path carries the exact shortest-hop distance to its
destination. -/
theorem bfs_sound (g : Grid) (adj : Pos → List Pos) (c : Pos) (univ : Finset Pos)
    (hadj : ∀ p q', q' ∈ adj p → q' ∈ univ) :
    ∀ (fuel : Nat) (q : List PathE) (seen : List Pos),
      2 * (univ \ seen.toFinset).card + q.length ≤ fuel →
      BfsInv adj c q seen →
      ∀ pe ∈ bfsLoop g adj fuel q seen, DistIs adj c pe.dest pe.len := by
  intro fuel
  induction fuel with
  | zero => intro q seen _ _ pe hpe; simp [bfsLoop] at hpe
  | succ fuel ih =>
      intro q seen hfuel hinv pe hpe
      match q with
      | [] => simp [bfsLoop] at hpe
      | cur :: rest =>
          rw [bfsLoop_cons] at hpe
          rcases List.mem_append.mp hpe with hpe | hpe
          · split at hpe
            · have hpc := List.mem_singleton.mp hpe
              rw [hpc]
              exact hinv.2.2.1 cur (List.mem_cons_self _ _)
            · simp at hpe
          · refine ih _ _ ?_ (bfs_step g adj c cur rest seen hinv) pe hpe
            have hm := enq_measure g cur univ (adj cur.dest) (seen, [])
              (fun b hb => hadj _ b hb)
            rw [List.length_append]
            simp only [List.length_cons] at hfuel
            simp only [List.length_nil] at hm
            omega

/-- BFS completeness: every key cell reachable through the frontier appears
among the returned paths. -/
theorem bfs_complete (g : Grid) (adj : Pos → List Pos) (c : Pos) (univ : Finset Pos)
    (hadj : ∀ p q', q' ∈ adj p → q' ∈ univ) :
    ∀ (fuel : Nat) (q : List PathE) (seen : List Pos),
      2 * (univ \ seen.toFinset).card + q.length ≤ fuel →
      BfsInv adj c q seen →
      ∀ t : Pos, cellTypeOf (charAt g t) = CellType.key →
      ((∃ e ∈ q, e.dest = t) ∨ (t ∉ seen ∧ ∃ e ∈ q, ∃ k, walk adj e.dest k t)) →
      ∃ pe ∈ bfsLoop g adj fuel q seen, pe.dest = t := by
  intro fuel
  induction fuel with
  | zero =>
      intro q seen hfuel _ t _ hyp
      have hq : q = [] := List.length_eq_zero.mp (by omega)
      subst hq
      rcases hyp with ⟨e, he, _⟩ | ⟨_, e, he, _⟩ <;> simp at he
  | succ fuel ih =>
      intro q seen hfuel hinv t hkey hyp
      match q with
      | [] => rcases hyp with ⟨e, he, _⟩ | ⟨_, e, he, _⟩ <;> simp at he
      | cur :: rest =>
          have hmeas : 2 * (univ \ (enqueueNbrs g cur (adj cur.dest) (seen, [])).1.toFinset).card
              + (rest ++ (enqueueNbrs g cur (adj cur.dest) (seen, [])).2).length ≤ fuel := by
            have hm := enq_measure g cur univ (adj cur.dest) (seen, [])
              (fun b hb => hadj _ b hb)
            rw [List.length_append]
            simp only [List.length_cons] at hfuel
            simp only [List.length_nil] at hm
            omega
          have hstep := bfs_step g adj c cur rest seen hinv
          rw [bfsLoop_cons]
          rcases hyp with ⟨e, he, hed⟩ | ⟨ht, e, he, k, hwk⟩
          · rcases List.mem_cons.mp he with heq | hrest
            · have hcurd : cur.dest = t := by
                rw [← heq]
                exact hed
              rw [show cellTypeOf (charAt g cur.dest) = CellType.key by
                rw [hcurd]; exact hkey]
              rw [if_pos rfl]
              exact ⟨cur, List.mem_append_left _ (List.mem_singleton.mpr rfl), hcurd⟩
            · rcases ih _ _ hmeas hstep t hkey
                (Or.inl ⟨e, List.mem_append_left _ hrest, hed⟩) with ⟨pe, hpe, hped⟩
              exact ⟨pe, List.mem_append_right _ hpe, hped⟩
          · by_cases hts : t ∈ (enqueueNbrs g cur (adj cur.dest) (seen, [])).1
            · rcases enq_seen_sub g cur _ (seen, []) t hts with h | h
              · exact absurd h ht
              · rcases enq_nbr_entry g cur _ (seen, []) t h with h' | ⟨e', he', hed'⟩
                · exact absurd h' ht
                · rcases ih _ _ hmeas hstep t hkey
                    (Or.inl ⟨e', List.mem_append_right _ he', hed'⟩) with ⟨pe, hpe, hped⟩
                  exact ⟨pe, List.mem_append_right _ hpe, hped⟩
            · rcases List.mem_cons.mp he with heq | hrest
              · have hcs : cur.dest ∈ (enqueueNbrs g cur (adj cur.dest) (seen, [])).1 :=
                  enq_seen_mono g cur _ (seen, []) _
                    (hinv.2.1 cur (List.mem_cons_self _ _))
                have hwk2 : walk adj cur.dest k t := by
                  rw [← heq]
                  exact hwk
                rcases bfs_cut2 hstep k cur.dest t hts hcs hwk2 with ⟨e', he', k', _, hwk'⟩
                rcases ih _ _ hmeas hstep t hkey
                  (Or.inr ⟨hts, e', he', k', hwk'⟩) with ⟨pe, hpe, hped⟩
                exact ⟨pe, List.mem_append_right _ hpe, hped⟩
              · rcases ih _ _ hmeas hstep t hkey
                  (Or.inr ⟨hts, e, List.mem_append_left _ hrest, k, hwk⟩)
                  with ⟨pe, hpe, hped⟩
                exact ⟨pe, List.mem_append_right _ hpe, hped⟩

/-- In a maze without doors, the BFS records no required keys. -/
theorem bfs_req_zero (g : Grid) (adj : Pos → List Pos)
    (hnd : ∀ p : Pos, cellTypeOf (charAt g p) ≠ CellType.door) :
    ∀ (fuel : Nat) (q : List PathE) (seen : List Pos),
      (∀ e ∈ q, e.reqKeys = 0) →
      ∀ pe ∈ bfsLoop g adj fuel q seen, pe.reqKeys = 0 := by
  intro fuel
  induction fuel with
  | zero => intro q seen _ pe hpe; simp [bfsLoop] at hpe
  | succ fuel ih =>
      intro q seen hq pe hpe
      match q with
      | [] => simp [bfsLoop] at hpe
      | cur :: rest =>
          rw [bfsLoop_cons] at hpe
          rcases List.mem_append.mp hpe with hpe | hpe
          · split at hpe
            · have hpc := List.mem_singleton.mp hpe
              rw [hpc]
              exact hq cur (List.mem_cons_self _ _)
            · simp at hpe
          · refine ih _ _ (fun e he => ?_) pe hpe
            rcases List.mem_append.mp he with he | he
            · exact hq e (List.mem_cons_of_mem _ he)
            · rcases enq_entries g cur _ _ e he with h | ⟨h1, h2, h3, h4, h5⟩
              · simp at h
              · rw [h5, if_neg (hnd e.dest)]
                exact hq cur (List.mem_cons_self _ _)

/-- The initial BFS invariant of `findPaths`. -/
theorem findPaths_init_inv (g : Grid) (c : Pos) :
    BfsInv (adjOf g) c [⟨0, c, 0⟩] [c] := by
  refine ⟨List.mem_singleton.mpr rfl, ?_, ?_, ?_, ?_, ?_⟩
  · intro e he
    rw [List.mem_singleton.mp he]
    exact List.mem_singleton.mpr rfl
  · intro e he
    rw [List.mem_singleton.mp he]
    exact ⟨show walk (adjOf g) c 0 c from rfl, fun m _ => Nat.zero_le m⟩
  · refine pairwise_of_forall_mem _ (fun a ha b hb => ?_)
    rw [List.mem_singleton.mp ha, List.mem_singleton.mp hb]
  · intro e he e' he'
    rw [List.mem_singleton.mp he, List.mem_singleton.mp he']
    omega
  · intro a ha
    exact Or.inl ⟨⟨0, c, 0⟩, List.mem_singleton.mpr rfl, (List.mem_singleton.mp ha).symm⟩

/-- The fuel of `findPaths` covers the whole BFS. -/
theorem findPaths_fuel_ok (g : Grid) (c : Pos) :
    2 * (cellsFin g \ ([c] : List Pos).toFinset).card + ([(⟨0, c, 0⟩ : PathE)]).length ≤
      2 * gridSize g + 1 := by
  have h1 : (cellsFin g \ ([c] : List Pos).toFinset).card ≤ (cellsFin g).card :=
    Finset.card_le_card (Finset.sdiff_subset)
  have h2 := cellsFin_card_le g
  simp only [List.length_cons, List.length_nil]
  omega

/-- Every path `findPaths` returns carries the exact BFS distance. -/
theorem findPaths_exact (g : Grid) (c : Pos) :
    ∀ pe ∈ findPaths g c, DistIs (adjOf g) c pe.dest pe.len := by
  intro pe hpe
  exact bfs_sound g (adjOf g) c (cellsFin g) (fun p q' hq' => adjOf_bnd g p q' hq')
    (2 * gridSize g + 1) [⟨0, c, 0⟩] [c] (findPaths_fuel_ok g c)
    (findPaths_init_inv g c) pe hpe

/-- Every reachable key cell receives a path in `findPaths`. -/
theorem findPaths_complete_thm (g : Grid) (c t : Pos)
    (hkey : cellTypeOf (charAt g t) = CellType.key)
    (hreach : ∃ n, walk (adjOf g) c n t) :
    ∃ pe ∈ findPaths g c, pe.dest = t := by
  rcases hreach with ⟨n, hw⟩
  refine bfs_complete g (adjOf g) c (cellsFin g) (fun p q' hq' => adjOf_bnd g p q' hq')
    (2 * gridSize g + 1) [⟨0, c, 0⟩] [c] (findPaths_fuel_ok g c)
    (findPaths_init_inv g c) t hkey ?_
  by_cases htc : t = c
  · exact Or.inl ⟨⟨0, c, 0⟩, List.mem_singleton.mpr rfl, htc.symm⟩
  · refine Or.inr ⟨fun hmem => htc (List.mem_singleton.mp hmem),
      ⟨0, c, 0⟩, List.mem_singleton.mpr rfl, n, hw⟩

/-- In a maze without doors, every path of `findPaths` requires no keys. -/
theorem findPaths_req_zero (g : Grid) (c : Pos)
    (hnd : ∀ p : Pos, cellTypeOf (charAt g p) ≠ CellType.door) :
    ∀ pe ∈ findPaths g c, pe.reqKeys = 0 := by
  intro pe hpe
  refine bfs_req_zero g (adjOf g) hnd (2 * gridSize g + 1) [⟨0, c, 0⟩] [c]
    (fun e he => ?_) pe hpe
  rw [List.mem_singleton.mp he]

/-- Bits set by `addCell` come from the old keyset or the added cell. -/
theorem addCell_keys_sub {h w i j ch b : Nat} {st : BuildSt}
    (hb : (addCell h w i j ch st).keys.testBit b = true) :
    st.keys.testBit b = true ∨ (cellTypeOf ch = CellType.key ∧ ch - 97 = b) := by
  have hb' : (if cellTypeOf ch = CellType.key then plus st.keys ch
      else st.keys).testBit b = true := hb
  split at hb'
  · next hk =>
      have hbnd := cellTypeOf_key_bounds hk
      rw [testBit_plus st.keys hbnd.1 hbnd.2] at hb'
      by_cases h1 : st.keys.testBit b = true
      · exact Or.inl h1
      · right
        refine ⟨hk, ?_⟩
        cases hx : st.keys.testBit b
        · rw [hx, Bool.false_or] at hb'
          exact of_decide_eq_true hb'
        · exact absurd hx h1
  · exact Or.inl hb'

/-- Bits set by a row scan come from the old keyset or a key byte of the
row. -/
theorem buildRow_keys_sub {h w i : Nat} :
    ∀ (chs : List Nat) (j : Nat) (st : BuildSt) (b : Nat),
      (buildRow h w i j chs st).keys.testBit b = true →
      st.keys.testBit b = true ∨
        ∃ (d : Nat) (ch : Nat), chs[d]? = some ch ∧ cellTypeOf ch = CellType.key ∧
          ch - 97 = b := by
  intro chs
  induction chs with
  | nil => intro j st b hb; exact Or.inl hb
  | cons ch rest ih =>
      intro j st b hb
      rw [buildRow] at hb
      rcases ih (j + 1) _ b hb with h | ⟨d, ch', hd, hk, hbit⟩
      · split at h
        · rcases addCell_keys_sub h with h' | ⟨hk, hbit⟩
          · exact Or.inl h'
          · exact Or.inr ⟨0, ch, List.getElem?_cons_zero, hk, hbit⟩
        · exact Or.inl h
      · exact Or.inr ⟨d + 1, ch', by rw [List.getElem?_cons_succ]; exact hd, hk, hbit⟩

/-- Bits set by the full scan come from the initial keyset or a key byte of
the grid. -/
theorem buildRows_keys_sub {h w : Nat} :
    ∀ (rows : List (List Nat)) (i : Nat) (st : BuildSt) (b : Nat),
      (buildRows h w i rows st).keys.testBit b = true →
      st.keys.testBit b = true ∨
        ∃ (r : Nat) (row : List Nat) (d : Nat) (ch : Nat), rows[r]? = some row ∧
          row[d]? = some ch ∧ cellTypeOf ch = CellType.key ∧ ch - 97 = b := by
  intro rows
  induction rows with
  | nil => intro i st b hb; exact Or.inl hb
  | cons row0 rest ih =>
      intro i st b hb
      rcases ih (i + 1) _ b hb with h | ⟨r, row, d, ch, hr, hd, hk, hbit⟩
      · rcases buildRow_keys_sub row0 0 st b h with h' | ⟨d, ch, hd, hk, hbit⟩
        · exact Or.inl h'
        · exact Or.inr ⟨0, row0, d, ch, List.getElem?_cons_zero, hd, hk, hbit⟩
      · exact Or.inr ⟨r + 1, row, d, ch, by rw [List.getElem?_cons_succ]; exact hr,
          hd, hk, hbit⟩

/-- Every bit of the maze keyset comes from some key cell. -/
theorem mazeKeys_sound (g : Grid) (b : Nat) (hb : (mazeKeys g).testBit b = true) :
    ∃ p : Pos, cellTypeOf (charAt g p) = CellType.key ∧ charAt g p - 97 = b := by
  rcases buildRows_keys_sub g 0 initSt b hb with h | ⟨r, row, d, ch, hr, hd, hk, hbit⟩
  · rw [show initSt.keys = 0 from rfl, Nat.zero_testBit] at h
    exact absurd h (by decide)
  · exact ⟨(r, d), by rw [charAt_of_getElem? hr hd]; exact hk,
      by rw [charAt_of_getElem? hr hd]; exact hbit⟩

/-- Members of `startRow` are start cells of the scanned bytes. -/
theorem startRow_mem (i : Nat) :
    ∀ (chs : List Nat) (j : Nat) (p : Pos), p ∈ startRow i j chs →
      ∃ d ch, chs[d]? = some ch ∧ p = (i, j + d) ∧
        cellTypeOf ch = CellType.start := by
  intro chs
  induction chs with
  | nil => intro j p hp; simp [startRow] at hp
  | cons ch rest ih =>
      intro j p hp
      rw [startRow] at hp
      rcases List.mem_append.mp hp with hp | hp
      · split at hp
        · next hcond =>
            rw [List.mem_singleton.mp hp]
            exact ⟨0, ch, List.getElem?_cons_zero, by rw [Nat.add_zero], hcond.2⟩
        · simp at hp
      · rcases ih (j + 1) p hp with ⟨d, ch', hd, hpe, hst⟩
        refine ⟨d + 1, ch', by rw [List.getElem?_cons_succ]; exact hd, ?_, hst⟩
        rw [hpe]
        rw [show j + 1 + d = j + (d + 1) by omega]

/-- Members of `startCellsAux` are start cells of the scanned rows. -/
theorem startCellsAux_mem :
    ∀ (rows : List (List Nat)) (i : Nat) (p : Pos), p ∈ startCellsAux i rows →
      ∃ r row d ch, rows[r]? = some row ∧ row[d]? = some ch ∧ p = (i + r, d) ∧
        cellTypeOf ch = CellType.start := by
  intro rows
  induction rows with
  | nil => intro i p hp; simp [startCellsAux] at hp
  | cons row0 rest ih =>
      intro i p hp
      rw [startCellsAux] at hp
      rcases List.mem_append.mp hp with hp | hp
      · rcases startRow_mem i row0 0 p hp with ⟨d, ch, hd, hpe, hst⟩
        refine ⟨0, row0, d, ch, List.getElem?_cons_zero, hd, ?_, hst⟩
        rw [hpe, Nat.add_zero]
        rw [show (0 : Nat) + d = d from Nat.zero_add d]
      · rcases ih (i + 1) p hp with ⟨r, row, d, ch, hr, hd, hpe, hst⟩
        refine ⟨r + 1, row, d, ch, by rw [List.getElem?_cons_succ]; exact hr, hd, ?_, hst⟩
        rw [hpe]
        rw [show i + 1 + r = i + (r + 1) by omega]

/-- Every cell `maze.start` returns is a start cell. -/
theorem startCells_char (g : Grid) (p : Pos) (hp : p ∈ startCells g) :
    cellTypeOf (charAt g p) = CellType.start := by
  rcases startCellsAux_mem g 0 p hp with ⟨r, row, d, ch, hr, hd, hpe, hst⟩
  rw [hpe, Nat.zero_add, charAt_of_getElem? hr hd]
  exact hst

/-- A fold of `pathStep` whose every eligible candidate contributes the
same positive distance `d` and leaves the table unchanged computes `d`. -/
theorem foldl_pathStep_const (g : Grid) (recurF : StateE → Table → Nat × Table)
    (s : StateE) (i : Nat) (d : Nat) (hd1 : 1 ≤ d) :
    ∀ ps : List PathE,
      (∀ pe ∈ ps, ∀ (a : Nat) (t : Table),
        pathStep g recurF s i (a, t) pe = (if a == 0 || d < a then d else a, t)) →
      ps ≠ [] → ∀ t, ps.foldl (pathStep g recurF s i) (0, t) = (d, t) := by
  have hstay : ∀ ps : List PathE,
      (∀ pe ∈ ps, ∀ (a : Nat) (t : Table),
        pathStep g recurF s i (a, t) pe = (if a == 0 || d < a then d else a, t)) →
      ∀ t, ps.foldl (pathStep g recurF s i) (d, t) = (d, t) := by
    intro ps
    induction ps with
    | nil => intro _ t; rfl
    | cons pe rest ih =>
        intro h t
        rw [List.foldl_cons, h pe (List.mem_cons_self _ _) d t]
        have hcond : (d == 0 || decide (d < d)) = false := by
          have hb0 : (d == 0) = false := beq_eq_false_iff_ne.mpr (by omega)
          rw [hb0, Bool.false_or, decide_eq_false (by omega)]
        rw [if_neg (by rw [hcond]; exact Bool.false_ne_true)]
        exact ih (fun q hq => h q (List.mem_cons_of_mem _ hq)) t
  intro ps h hne t
  match ps with
  | [] => exact absurd rfl hne
  | pe :: rest =>
      rw [List.foldl_cons, h pe (List.mem_cons_self _ _) 0 t]
      have hcond : ((0 : Nat) == 0 || decide (d < 0)) = true := by
        rw [beq_self_eq_true]
        rfl
      rw [if_pos hcond]
      exact hstay rest (fun q hq => h q (List.mem_cons_of_mem _ hq)) t

/-- One-step unfolding of `shortestPathF` at positive fuel. -/
theorem shortestPathF_succ (g : Grid) (n : Nat) (s : StateE) (t : Table) :
    shortestPathF g (n + 1) s t =
      (if s.keys = mazeKeys g then (0, t)
      else
        match List.lookup (stateKey g s) t with
        | some d => (d, t)
        | none =>
            ((s.cells.enum.foldl (cellStep g (fun s' t' => shortestPathF g n s' t') s)
                (0, t)).1,
             (stateKey g s,
               (s.cells.enum.foldl (cellStep g (fun s' t' => shortestPathF g n s' t') s)
                 (0, t)).1) ::
             (s.cells.enum.foldl (cellStep g (fun s' t' => shortestPathF g n s' t') s)
               (0, t)).2)) := rfl

/-- C5 — in a maze with a single start cell, a single key cell reachable
from it, and no doors, the search computes exactly the BFS shortest-hop
distance from the start to the key. -/
theorem single_key_no_doors_bfs_distance (g : Grid) (s0 k : Pos) (d : Nat)
    (hstart : startCells g = [s0])
    (hkey : ∀ p : Pos, cellTypeOf (charAt g p) = CellType.key ↔ p = k)
    (hnodoor : ∀ p : Pos, cellTypeOf (charAt g p) ≠ CellType.door)
    (hdist : DistIs (adjOf g) s0 k d) (f : Nat) :
    (shortestPathF g (f + 2) ⟨startCells g, 0⟩ []).1 = d := by
  have hs0 : cellTypeOf (charAt g s0) = CellType.start :=
    startCells_char g s0 (by rw [hstart]; exact List.mem_singleton.mpr rfl)
  have hs0c : charAt g s0 = 64 := cellTypeOf_start_eq hs0
  have hkc : cellTypeOf (charAt g k) = CellType.key := (hkey k).mpr rfl
  have hkb := cellTypeOf_key_bounds hkc
  have hd1 : 1 ≤ d := by
    cases d with
    | zero =>
        exfalso
        have hks : k = s0 := hdist.1
        rw [hks, hs0c] at hkc
        exact absurd hkc (by decide)
    | succ n => omega
  have hmk : mazeKeys g = 2 ^ (charAt g k - 97) := by
    refine Nat.eq_of_testBit_eq (fun b => ?_)
    rw [Nat.testBit_two_pow]
    by_cases hb : (mazeKeys g).testBit b = true
    · rcases mazeKeys_sound g b hb with ⟨p, hpk, hpb⟩
      have hpk2 : p = k := (hkey p).mp hpk
      rw [hpk2] at hpb
      rw [hb, hpb]
      simp
    · have hbf : (mazeKeys g).testBit b = false := by
        cases hx : (mazeKeys g).testBit b
        · rfl
        · exact absurd hx hb
      rw [hbf]
      by_cases hbb : charAt g k - 97 = b
      · exact absurd (by rw [← hbb]; exact mazeKeys_complete g k hkc) hb
      · simp [hbb]
  have hneq : ¬ ((0 : Nat) = mazeKeys g) := by
    have h2 : 0 < 2 ^ (charAt g k - 97) := pow_pos (by norm_num) _
    rw [hmk]
    omega
  have hreq : ∀ pe ∈ findPaths g s0, pe.reqKeys = 0 := findPaths_req_zero g s0 hnodoor
  have hdests : ∀ pe ∈ findPaths g s0, pe.dest = k := fun pe hpe =>
    (hkey pe.dest).mp (bfsLoop_key_dest g (adjOf g) (2 * gridSize g + 1)
      [⟨0, s0, 0⟩] [s0] pe hpe)
  have hlens : ∀ pe ∈ findPaths g s0, pe.len = d := by
    intro pe hpe
    have hex := findPaths_exact g s0 pe hpe
    rw [hdests pe hpe] at hex
    exact le_antisymm (hex.2 d hdist.1) (hdist.2 pe.len hex.1)
  have hnempty : findPaths g s0 ≠ [] := by
    rcases findPaths_complete_thm g s0 k hkc ⟨d, hdist.1⟩ with ⟨pe, hpe, _⟩
    intro hc
    rw [hc] at hpe
    simp at hpe
  have hstepbeh : ∀ pe ∈ findPaths g s0, ∀ (a : Nat) (t : Table),
      pathStep g (fun s' t' => shortestPathF g (f + 1) s' t')
        ⟨startCells g, 0⟩ 0 (a, t) pe = (if a == 0 || d < a then d else a, t) := by
    intro pe hpe a t
    have hdk := hdests pe hpe
    have hreqz := hreq pe hpe
    have hcont : contains (0 : Nat) (charAt g pe.dest) = false := by
      rw [hdk, contains_eq_testBit 0 hkb.1 hkb.2, Nat.zero_testBit]
    have hca : containsAll (0 : Nat) pe.reqKeys = true := by
      rw [hreqz]
      rfl
    have hcond : ¬ ((contains (⟨startCells g, 0⟩ : StateE).keys (charAt g pe.dest) ||
        ! containsAll (⟨startCells g, 0⟩ : StateE).keys pe.reqKeys) = true) := by
      show ¬ ((contains 0 (charAt g pe.dest) || ! containsAll 0 pe.reqKeys) = true)
      rw [hcont, hca]
      decide
    rw [pathStep, if_neg hcond]
    have hrec : shortestPathF g (f + 1)
        ⟨(⟨startCells g, 0⟩ : StateE).cells.set 0 pe.dest,
          plus (⟨startCells g, 0⟩ : StateE).keys (charAt g pe.dest)⟩ (a, t).2 =
        (0, t) := by
      have hnextkeys : plus (0 : Nat) (charAt g pe.dest) = mazeKeys g := by
        rw [hdk, plus_eq 0 hkb.1 hkb.2, Nat.zero_or, hmk]
      simp only [shortestPathF]
      rw [if_pos (show (⟨(⟨startCells g, 0⟩ : StateE).cells.set 0 pe.dest,
        plus (⟨startCells g, 0⟩ : StateE).keys (charAt g pe.dest)⟩ : StateE).keys =
          mazeKeys g from hnextkeys)]
    simp only [hrec]
    rw [hlens pe hpe, Nat.add_zero]
  have hfold : (findPaths g s0).foldl
      (pathStep g (fun s' t' => shortestPathF g (f + 1) s' t') ⟨startCells g, 0⟩ 0)
      (0, []) = (d, []) :=
    foldl_pathStep_const g _ _ 0 d hd1 (findPaths g s0) hstepbeh hnempty []
  have hpaths : pathsOf g s0 = findPaths g s0 := by
    rw [pathsOf, if_pos (Or.inr hs0)]
  have henum : (⟨startCells g, 0⟩ : StateE).cells.enum = [(0, s0)] := by
    show (startCells g).enum = [(0, s0)]
    rw [hstart]
    rfl
  have hfold2 : (⟨startCells g, 0⟩ : StateE).cells.enum.foldl
      (cellStep g (fun s' t' => shortestPathF g (f + 1) s' t') ⟨startCells g, 0⟩)
      (0, []) = (d, []) := by
    rw [henum, List.foldl_cons, List.foldl_nil]
    show (pathsOf g s0).foldl
      (pathStep g (fun s' t' => shortestPathF g (f + 1) s' t') ⟨startCells g, 0⟩ 0)
      (0, []) = (d, [])
    rw [hpaths]
    exact hfold
  show (shortestPathF g ((f + 1) + 1) ⟨startCells g, 0⟩ []).1 = d
  rw [shortestPathF_succ]
  rw [if_neg (show ¬ ((⟨startCells g, 0⟩ : StateE).keys = mazeKeys g) from hneq)]
  rw [List.lookup_nil]
  simp only [hfold2]

/-- A door cell's byte is an uppercase letter. -/
theorem cellTypeOf_door_bounds {ch : Nat} (h : cellTypeOf ch = CellType.door) :
    65 ≤ ch ∧ ch ≤ 90 := by
  rw [cellTypeOf] at h
  split_ifs at h with h1 h2 h3 <;> first | exact h3 | exact absurd h (by decide)

/-- C5 witness: on the corridor `#@a#` the search returns the BFS distance
1 from the start to the key. -/
theorem single_key_no_doors_bfs_distance_witness :
    startCells mazeTiny = [(0, 1)] ∧
    (shortestPathF mazeTiny 30 ⟨startCells mazeTiny, 0⟩ []).1 = 1 := by
  refine ⟨by decide, ?_⟩
  refine single_key_no_doors_bfs_distance mazeTiny (0, 1) (0, 2) 1 (by decide) ?_ ?_ ?_ 28
  · intro p
    constructor
    · intro h
      have hw : charAt mazeTiny p ≠ 35 := by
        have := cellTypeOf_key_bounds h
        omega
      obtain ⟨hi, hj⟩ := charAt_ne_wall_inbounds _ _ hw
      obtain ⟨i, j⟩ := p
      have hi1 : i < 1 := hi
      interval_cases i
      have hj4 : j < 4 := hj
      interval_cases j <;> revert h <;> decide
    · intro h
      rw [h]
      decide
  · intro p hdoor
    have hw : charAt mazeTiny p ≠ 35 := by
      have := cellTypeOf_door_bounds hdoor
      omega
    obtain ⟨hi, hj⟩ := charAt_ne_wall_inbounds _ _ hw
    obtain ⟨i, j⟩ := p
    have hi1 : i < 1 := hi
    interval_cases i
    have hj4 : j < 4 := hj
    interval_cases j <;> revert hdoor <;> decide
  · constructor
    · exact ⟨(0, 1), rfl, by decide⟩
    · intro m hm
      cases m with
      | zero =>
          have heq : ((0, 2) : Pos) = (0, 1) := hm
          exact absurd heq (by decide)
      | succ n => omega

/-- C6 witness: the eligible branch at a concrete instance. -/
theorem path_step_eligibility_witness :
    contains (0 : Nat) (charAt maze1 (1, 7)) = false ∧
    pathStep maze1 (fun _ t => (0, t)) ⟨[(1, 5)], 0⟩ 0 (0, []) ⟨2, (1, 7), 0⟩ = (2, []) := by
  refine ⟨by decide, ?_⟩
  have h := (path_step_eligibility maze1 (fun _ t => (0, t)) ⟨[(1, 5)], 0⟩ 0 (0, [])
    ⟨2, (1, 7), 0⟩).2 (by decide) (by decide)
  rw [h]
  rfl

end Day18
